import Mathlib

/-!
Verification of the miniapm trace-ingestion and analytics engine.

Shallow embedding of the core logic of `src/models/span.rs`,
`src/models/request.rs`, `src/models/error.rs`, `src/api/auth.rs` and
`src/jobs/retention.rs`.  Machine integers (`i64`, `usize`) are modelled
as `Int`/`Nat` (the values involved stay far from the overflow range),
`f64` values whose exact bit-level rounding is irrelevant to the claims
(durations, similarity ratios, percentile indices at the concrete inputs
considered) are modelled as `ℚ`, and fallible operations return `Option`
or `Except`.  SQLite tables are modelled as lists of row records;
`INSERT OR REPLACE` becomes a keyed upsert on those lists.
-/

namespace MiniApm

/-- Attribute bags (`HashMap<String, String>` in the source) are modelled as
association lists with first-match lookup; OTLP attribute keys are unique. -/
abbrev AttrMap := List (String × String)

def AttrMap.get (m : AttrMap) (k : String) : Option String :=
  (List.find? (fun p => p.1 == k) m).map (·.2)

def AttrMap.containsKey (m : AttrMap) (k : String) : Bool :=
  (List.find? (fun p => p.1 == k) m).isSome

/-- Rust `str::contains` (substring containment) on the char sequence. -/
def strContains (s pat : String) : Bool :=
  s.toList.tails.any (fun t => pat.toList.isPrefixOf t)

/-- Rust `str::starts_with` on the char sequence. -/
def strStartsWith (s pre : String) : Bool :=
  pre.toList.isPrefixOf s.toList

/-- Rust `str::to_lowercase` (the characters involved are ASCII). -/
def strToLower (s : String) : String := ⟨s.toList.map Char.toLower⟩

/-- Rust `str::is_empty`. -/
def strIsEmpty (s : String) : Bool := s == ""

/-- Dropping the first `n` characters (all prefixes involved are ASCII, so
character counts and byte counts agree). -/
def strDrop (s : String) (n : Nat) : String := ⟨s.toList.drop n⟩

def charListLt : List Char → List Char → Bool
  | [], [] => false
  | [], _ :: _ => true
  | _ :: _, [] => false
  | a :: as, b :: bs =>
    if a < b then true else if b < a then false else charListLt as bs

/-- SQLite TEXT `<` (memcmp byte order; for the ASCII timestamps involved
this is lexicographic character order). -/
def strLt (a b : String) : Bool := charListLt a.toList b.toList

-- ===========================================================================
-- Span classifier (src/models/span.rs, SpanCategory)
-- ===========================================================================

inductive SpanCategory where
  | httpServer
  | httpClient
  | db
  | view
  | search
  | job
  | command
  | internal
deriving DecidableEq, Repr

/-- `SpanCategory::from_attributes` from src/models/span.rs. -/
def SpanCategory.from_attributes (name : String) (kind : Int) (attributes : AttrMap) :
    SpanCategory :=
  if attributes.containsKey "db.system" || attributes.containsKey "db.statement" then
    let db_system := (attributes.get "db.system").getD ""
    if db_system == "elasticsearch" || db_system == "opensearch" then
      SpanCategory.search
    else
      SpanCategory.db
  else
    let has_http := attributes.containsKey "http.url"
      || attributes.containsKey "http.method"
      || attributes.containsKey "url.full"
      || attributes.containsKey "http.request.method"
    if has_http && kind == 3 then SpanCategory.httpClient
    else if has_http && kind == 2 then SpanCategory.httpServer
    else if strStartsWith name "render_template"
        || strStartsWith name "render_partial"
        || strStartsWith name "render_collection"
        || strContains name ".erb"
        || strContains name ".haml"
        || strContains name ".slim"
        || strContains name "ActionView" then
      SpanCategory.view
    else if kind == 4 || kind == 5 then SpanCategory.job
    else if attributes.containsKey "messaging.system"
        || attributes.containsKey "messaging.destination.name" then
      SpanCategory.job
    else
      let name_lower := strToLower name
      if strContains name_lower "sidekiq"
          || strContains name_lower "activejob"
          || strContains name_lower "active_job"
          || strContains name_lower "perform" then
        SpanCategory.job
      else if strStartsWith name_lower "rake:"
          || strStartsWith name_lower "rake "
          || strContains name_lower "rake::task"
          || strStartsWith name_lower "thor:"
          || strStartsWith name_lower "make:" then
        SpanCategory.command
      else
        SpanCategory.internal

def SpanCategory.as_str : SpanCategory → String
  | .httpServer => "http_server"
  | .httpClient => "http_client"
  | .db => "db"
  | .view => "view"
  | .search => "search"
  | .job => "job"
  | .command => "command"
  | .internal => "internal"

def SpanCategory.from_str (s : String) : SpanCategory :=
  if s == "http_server" then .httpServer
  else if s == "http_client" then .httpClient
  else if s == "db" then .db
  else if s == "view" then .view
  else if s == "search" then .search
  else if s == "job" then .job
  else if s == "command" then .command
  else .internal

inductive RootSpanType where
  | web
  | job
  | command
deriving DecidableEq, Repr

/-- `RootSpanType::from_category` from src/models/span.rs. -/
def RootSpanType.from_category : SpanCategory → Option RootSpanType
  | .httpServer => some .web
  | .job => some .job
  | .command => some .command
  | _ => none

def RootSpanType.as_str : RootSpanType → String
  | .web => "web"
  | .job => "job"
  | .command => "command"

def RootSpanType.from_str (s : String) : Option RootSpanType :=
  if s == "web" then some .web
  else if s == "job" then some .job
  else if s == "command" then some .command
  else none

-- ===========================================================================
-- SQL normalizer (src/models/span.rs, normalize_sql)
-- ===========================================================================

/-- The "does an emitted digit start a numeric literal here" test of
`normalize_sql`: the accumulated result is empty or ends with a space,
`=`, `(` or `,`.  `accRev` is the accumulated result in reverse. -/
def numTrigger (accRev : List Char) : Bool :=
  match accRev with
  | [] => true
  | c :: _ => c == ' ' || c == '=' || c == '(' || c == ','

/-- The digit/dot consumption loop of `normalize_sql`
(`while chars.peek() is a digit or '.' { chars.next(); }`). -/
def dropNum (l : List Char) : List Char :=
  l.dropWhile (fun ch => ch.isDigit || ch == '.')

/-- The character scan of `normalize_sql` (everything before the final
whitespace collapse).  `accRev` is the built `result` string in reverse
(so `result.ends_with(c)` is a head test). -/
def scanSql (l : List Char) (inString : Bool) (stringChar : Char)
    (accRev : List Char) : List Char :=
  match l with
  | [] => accRev
  | c :: rest =>
    if inString then
      if c == stringChar then
        if rest.head? == some stringChar then
          -- escaped (doubled) quote: consume it and stay inside the string
          scanSql rest.tail inString stringChar accRev
        else
          scanSql rest false stringChar ('?' :: accRev)
      else
        scanSql rest inString stringChar accRev
    else if c == '\'' || c == '"' then
      scanSql rest true c accRev
    else if c.isDigit && numTrigger accRev then
      scanSql (dropNum rest) inString stringChar ('?' :: accRev)
    else
      scanSql rest inString stringChar (c :: accRev)
termination_by l.length
decreasing_by
  all_goals simp only [List.length_cons, dropNum, List.length_tail]
  all_goals try omega
  all_goals exact Nat.lt_succ_of_le ((List.dropWhile_suffix _).length_le)

/-- Structurally recursive twin of `scanSql` (the scan consumes at least
one input character per step, so `l.length` fuel suffices); proved equal
to `scanSql` below, and used only to evaluate concrete inputs (the
well-founded recursion of `scanSql` does not reduce in the kernel). -/
def scanSqlFuel : Nat → List Char → Bool → Char → List Char → List Char
  | 0, _, _, _, accRev => accRev
  | _ + 1, [], _, _, accRev => accRev
  | f + 1, c :: rest, inString, stringChar, accRev =>
    if inString then
      if c == stringChar then
        if rest.head? == some stringChar then
          scanSqlFuel f rest.tail inString stringChar accRev
        else
          scanSqlFuel f rest false stringChar ('?' :: accRev)
      else
        scanSqlFuel f rest inString stringChar accRev
    else if c == '\'' || c == '"' then
      scanSqlFuel f rest true c accRev
    else if c.isDigit && numTrigger accRev then
      scanSqlFuel f (dropNum rest) inString stringChar ('?' :: accRev)
    else
      scanSqlFuel f rest inString stringChar (c :: accRev)

/-- Rust `char::is_whitespace` (the Unicode `White_Space` property),
used by `str::split_whitespace` in the final step of `normalize_sql`. -/
def isRustWhitespace (c : Char) : Bool :=
  c.val == 0x09 || c.val == 0x0A || c.val == 0x0B || c.val == 0x0C
    || c.val == 0x0D || c.val == 0x20 || c.val == 0x85 || c.val == 0xA0
    || c.val == 0x1680
    || (0x2000 ≤ c.val && c.val ≤ 0x200A)
    || c.val == 0x2028 || c.val == 0x2029 || c.val == 0x202F
    || c.val == 0x205F || c.val == 0x3000

/-- `str::split_whitespace`: the maximal whitespace-free words, in order.
`acc` is the current word in reverse. -/
def wordsAux (l : List Char) (acc : List Char) : List (List Char) :=
  match l with
  | [] => if acc.isEmpty then [] else [acc.reverse]
  | c :: rest =>
    if isRustWhitespace c then
      if acc.isEmpty then wordsAux rest [] else acc.reverse :: wordsAux rest []
    else
      wordsAux rest (c :: acc)

/-- `.split_whitespace().collect::<Vec<_>>().join(" ")`. -/
def joinWords (ws : List (List Char)) : List Char :=
  (ws.intersperse [' ']).flatten

/-- `normalize_sql` from src/models/span.rs. -/
def normalize_sql (sql : String) : String :=
  ⟨joinWords (wordsAux (scanSql sql.toList false ' ' []).reverse [])⟩

-- ===========================================================================
-- Trace lookup and depth computation (src/models/span.rs, get_trace)
-- ===========================================================================

/-- A row of the `spans` table as selected by `get_trace` (the 13 selected
columns).  `duration_ms` (an `f64` column) is modelled as `ℚ`. -/
structure TraceRow where
  id : Int
  span_id : String
  parent_span_id : Option String
  name : String
  span_category : String
  duration_ms : ℚ
  start_time_unix_nano : Int
  status_code : Int
  http_method : Option String
  http_status_code : Option Int
  db_operation : Option String
  db_system : Option String
  db_statement : Option String
deriving Repr, DecidableEq

/-- `SpanDisplay` from src/models/span.rs (offsets/widths as `ℚ`). -/
structure SpanDisplay where
  id : Int
  span_id : String
  parent_span_id : Option String
  name : String
  category : SpanCategory
  duration_ms : ℚ
  offset_ms : ℚ
  offset_percent : ℚ
  width_percent : ℚ
  depth : Nat
  status_code : Int
  http_method : Option String
  http_status_code : Option Int
  db_operation : Option String
  db_system : Option String
  db_statement : Option String
deriving Repr, DecidableEq

structure TraceDetail where
  trace_id : String
  spans : List SpanDisplay
  total_duration_ms : ℚ
  root_span : Option SpanDisplay
deriving Repr, DecidableEq

/-- Lookup in the parent map (`HashMap<String, Option<String>>`); span ids in
a trace are unique (`(trace_id, span_id)` is the table's upsert key), so
first-match lookup in the association list models the hash map. -/
def pmLookup (m : List (String × Option String)) (k : String) :
    Option (Option String) :=
  (List.find? (fun p => p.1 == k) m).map (·.2)

/-- `compute_depth` from `get_trace` in src/models/span.rs.

The source is an unbounded recursion (no fuel, no visited set) memoized in
`depth_cache`; the cache is written only *after* the recursive call returns,
so it never affects the value computed for a span id and cannot stop a
recursion whose parent chain is cyclic.  The `fuel` argument makes the
function total in Lean: `none` models non-termination of the source
recursion (a result the source can never produce), and for every chain that
the source resolves, any sufficiently large fuel returns `some` of the
source's depth. -/
def computeDepth (fuel : Nat) (parentMap : List (String × Option String))
    (spanId : String) : Option Nat :=
  match fuel with
  | 0 => none
  | f + 1 =>
    match pmLookup parentMap spanId with
    | some (some parentId) => (computeDepth f parentMap parentId).map (· + 1)
    | _ => some 0

/-- `spans.iter().map(|s| (s.1.clone(), s.2.clone())).collect()` in
`get_trace`. -/
def parentMapOf (rows : List TraceRow) : List (String × Option String) :=
  rows.map (fun r => (r.span_id, r.parent_span_id))

/-- Floor of a rational, by floor division of numerator by (positive)
denominator (kept away from the `⌊⌋` notation so that the kernel can
evaluate it on concrete inputs). -/
def ratFloor (q : ℚ) : Int := q.num.fdiv (q.den : Int)

/-- `as i64` truncation (toward zero) of a (here rational-modelled) float. -/
def truncQ (q : ℚ) : Int := q.num.tdiv (q.den : Int)

/-- `get_trace` from src/models/span.rs, applied to the rows the SQL query
returns for the trace id (ordered by `start_time_unix_nano` ascending).
Returns `none` both for the empty row set (the source's `Ok(None)`) and
when a depth computation does not terminate (in which case the source
returns nothing at all).  Fuel `rows.length + 1` is enough for every
terminating chain: a resolving parent chain visits distinct keys of the
parent map plus at most one missing id. -/
def get_trace (trace_id : String) (rows : List TraceRow) : Option TraceDetail :=
  if rows.isEmpty then none
  else
    let trace_start := (rows.map (·.start_time_unix_nano)).min?.getD 0
    let trace_end :=
      (rows.map (fun s => s.start_time_unix_nano + truncQ (s.duration_ms * 1000000))).max?.getD 0
    let total_duration_ms : ℚ := ((trace_end - trace_start : Int) : ℚ) / 1000000
    let parent_map := parentMapOf rows
    let fuel := rows.length + 1
    (rows.mapM (fun s =>
      (computeDepth fuel parent_map s.span_id).map (fun depth =>
        let offset_ms : ℚ := ((s.start_time_unix_nano - trace_start : Int) : ℚ) / 1000000
        ({
          id := s.id
          span_id := s.span_id
          parent_span_id := s.parent_span_id
          name := s.name
          category := SpanCategory.from_str s.span_category
          duration_ms := s.duration_ms
          offset_ms := offset_ms
          offset_percent := if 0 < total_duration_ms then offset_ms / total_duration_ms * 100 else 0
          width_percent := if 0 < total_duration_ms then s.duration_ms / total_duration_ms * 100 else 100
          depth := depth
          status_code := s.status_code
          http_method := s.http_method
          http_status_code := s.http_status_code
          db_operation := s.db_operation
          db_system := s.db_system
          db_statement := s.db_statement } : SpanDisplay)))).map
      (fun display_spans =>
        { trace_id := trace_id
          spans := display_spans
          total_duration_ms := total_duration_ms
          root_span := display_spans.find? (fun s => s.depth == 0) })

-- ===========================================================================
-- Percentiles (src/models/request.rs)
-- ===========================================================================

/-- `f64::round`: round half away from zero. -/
def roundRust (q : ℚ) : Int :=
  if 0 ≤ q then ratFloor (q + 1/2) else -(ratFloor (-q + 1/2))

/-- `calculate_percentile` from src/models/request.rs.  The float
computation `((percentile / 100.0) * (len - 1.0)).round() as usize` is
modelled over `ℚ` (`as usize` saturates at 0, hence `Int.toNat`); at the
inputs considered in the claims the `f64` computation is exact enough that
the rounded index coincides with the rational one. -/
def calculate_percentile (sorted_values : List ℚ) (percentile : ℚ) : ℚ :=
  if sorted_values.isEmpty then 0
  else
    let index := (roundRust (percentile / 100 * (sorted_values.length - 1))).toNat
    let index := min index (sorted_values.length - 1)
    sorted_values.getD index 0

structure LatencyStats where
  avg_ms : Int
  p95_ms : Int
  p99_ms : Int
deriving Repr, DecidableEq

/-- `latency_stats_since` from src/models/request.rs, applied to the
duration list the SQL query returns (sorted ascending by `total_ms`). -/
def latency_stats_since (values : List ℚ) : LatencyStats :=
  if values.isEmpty then { avg_ms := 0, p95_ms := 0, p99_ms := 0 }
  else
    let avg : ℚ := values.sum / values.length
    let p95_idx := min (roundRust ((95 : ℚ) / 100 * (values.length - 1))).toNat (values.length - 1)
    let p99_idx := min (roundRust ((99 : ℚ) / 100 * (values.length - 1))).toNat (values.length - 1)
    { avg_ms := roundRust avg
      p95_ms := roundRust (values.getD p95_idx 0)
      p99_ms := roundRust (values.getD p99_idx 0) }

-- ===========================================================================
-- N+1 query detection (src/models/span.rs)
-- ===========================================================================

def N_PLUS_1_THRESHOLD : Nat := 5

structure NPlus1Issue where
  pattern : String
  count : Nat
  total_duration_ms : ℚ
  span_ids : List String
deriving Repr, DecidableEq

/-- One step of the `pattern_counts` accumulation of `detect_n_plus_1`
(`entry.0 += 1; entry.1 += duration; entry.2.push(span_id)`), on an
association list in first-insertion order.  The source uses a `HashMap`
whose iteration order is unspecified; the list keeps insertion order, a
deterministic refinement — every property proved below (membership,
per-pattern payload, sortedness by count) is order-independent. -/
def upsertPattern (acc : List (String × Nat × ℚ × List String))
    (p : String) (d : ℚ) (sid : String) : List (String × Nat × ℚ × List String) :=
  match acc with
  | [] => [(p, 1, d, [sid])]
  | (q, c, t, ids) :: rest =>
    if q == p then (q, c + 1, t + d, ids ++ [sid]) :: rest
    else (q, c, t, ids) :: upsertPattern rest p d sid

/-- The grouping loop of `detect_n_plus_1`. -/
def groupDbPatterns (spans : List SpanDisplay) : List (String × Nat × ℚ × List String) :=
  spans.foldl (fun acc s =>
    if s.category = SpanCategory.db then
      match s.db_statement with
      | some statement => upsertPattern acc (normalize_sql statement) s.duration_ms s.span_id
      | none => acc
    else acc) []

/-- Stable insertion into a count-descending list
(models `issues.sort_by(|a, b| b.count.cmp(&a.count))`, a stable sort). -/
def insertByCountDesc (i : NPlus1Issue) : List NPlus1Issue → List NPlus1Issue
  | [] => [i]
  | j :: rest =>
    if i.count ≤ j.count then j :: insertByCountDesc i rest
    else i :: j :: rest

def sortByCountDesc (l : List NPlus1Issue) : List NPlus1Issue :=
  l.foldl (fun acc i => insertByCountDesc i acc) []

/-- `detect_n_plus_1` from src/models/span.rs. -/
def detect_n_plus_1 (spans : List SpanDisplay) : List NPlus1Issue :=
  let issues := ((groupDbPatterns spans).filter
      (fun e => N_PLUS_1_THRESHOLD ≤ e.2.1)).map
    (fun e => { pattern := e.1, count := e.2.1, total_duration_ms := e.2.2.1,
                span_ids := e.2.2.2 : NPlus1Issue })
  sortByCountDesc issues

/-- The db spans of a trace whose normalized statement is `p` (the
reference value for the grouping loop). -/
def patternSpans (spans : List SpanDisplay) (p : String) : List SpanDisplay :=
  spans.filter (fun s => s.category == SpanCategory.db &&
    (s.db_statement.map normalize_sql) == some p)

def patternCount (spans : List SpanDisplay) (p : String) : Nat :=
  (patternSpans spans p).length

def patternDuration (spans : List SpanDisplay) (p : String) : ℚ :=
  ((patternSpans spans p).map (·.duration_ms)).sum

def patternIds (spans : List SpanDisplay) (p : String) : List String :=
  (patternSpans spans p).map (·.span_id)

/-- Lookup of a pattern's accumulated entry. -/
def pfind (acc : List (String × Nat × ℚ × List String)) (p : String) :
    Option (String × Nat × ℚ × List String) :=
  acc.find? (fun e => e.1 == p)

-- ===========================================================================
-- Well-formed parent maps (spec §3 "Trace", §4.8 step 5)
-- ===========================================================================

/-- The parent step `parent_map.get(s).and_then(|p| p.as_ref())` as a
partial function: the parent id when the span is present and has one. -/
def parentOf (pm : List (String × Option String)) (s : String) : Option String :=
  match pmLookup pm s with
  | some (some p) => some p
  | _ => none

/-- `GroundedH pm s h`: following parent links from `s` reaches a parentless
id in exactly `h` steps.  A trace all of whose spans are grounded is acyclic
in the sense of the spec (cycles make every chain member ungrounded). -/
inductive GroundedH (pm : List (String × Option String)) : String → Nat → Prop
  | root {s : String} : parentOf pm s = none → GroundedH pm s 0
  | step {s p : String} {h : Nat} :
      parentOf pm s = some p → GroundedH pm p h → GroundedH pm s (h + 1)

/-- Iterated parent step (for the chain-distinctness argument). -/
def iterParent (pm : List (String × Option String)) : Nat → String → Option String
  | 0, s => some s
  | n + 1, s => (parentOf pm s).bind (iterParent pm n)

def spanIds (rows : List TraceRow) : List String := rows.map (·.span_id)

/-- Well-formedness of a trace in the sense of the spec: non-empty, unique
span ids (the table key), exactly one root (null parent), all parent links
resolving inside the trace, and acyclicity (every parent chain grounded). -/
def WellFormedTrace (rows : List TraceRow) : Prop :=
  rows ≠ [] ∧ (spanIds rows).Nodup ∧
    (rows.filter (fun r => r.parent_span_id == none)).length = 1 ∧
    (∀ r ∈ rows, ∀ p, r.parent_span_id = some p → p ∈ spanIds rows) ∧
    (∀ r ∈ rows, ∃ h, GroundedH (parentMapOf rows) r.span_id h)

-- ===========================================================================
-- OTLP ingestion (src/models/span.rs)
-- ===========================================================================

/-- OTLP attribute value.  `double_value` (an `f64`) is modelled as `ℚ`;
its `to_string` rendering is a stand-in (no claim depends on the printed
form of a double attribute). -/
structure AttributeValue where
  string_value : Option String
  int_value : Option String
  double_value : Option ℚ
  bool_value : Option Bool
deriving Repr, DecidableEq

structure KeyValue where
  key : String
  value : AttributeValue
deriving Repr, DecidableEq

structure SpanEvent where
  name : String
  time_unix_nano : Option String
  attributes : Option (List KeyValue)
deriving Repr, DecidableEq

structure SpanStatus where
  code : Option Int
  message : Option String
deriving Repr, DecidableEq

structure OtlpSpan where
  trace_id : String
  span_id : String
  parent_span_id : Option String
  name : String
  kind : Option Int
  start_time_unix_nano : String
  end_time_unix_nano : String
  attributes : Option (List KeyValue)
  events : Option (List SpanEvent)
  status : Option SpanStatus
deriving Repr, DecidableEq

structure Resource where
  attributes : Option (List KeyValue)
deriving Repr, DecidableEq

structure InstrumentationScope where
  name : Option String
  version : Option String
deriving Repr, DecidableEq

structure ScopeSpans where
  scope : Option InstrumentationScope
  spans : List OtlpSpan
deriving Repr, DecidableEq

structure ResourceSpans where
  resource : Option Resource
  scope_spans : Option (List ScopeSpans)
deriving Repr, DecidableEq

structure OtlpTraceRequest where
  resource_spans : List ResourceSpans
deriving Repr, DecidableEq

/-- `HashMap::insert`: a later binding for the same key shadows an earlier
one (the new pair is consed on, and lookup is first-match). -/
def attrInsert (m : AttrMap) (k v : String) : AttrMap := (k, v) :: m

/-- `parse_attributes` from src/models/span.rs: first populated field in
the order string, int-as-string, double, bool; entries with none set are
skipped. -/
def parse_attributes (attrs : Option (List KeyValue)) : AttrMap :=
  (attrs.getD []).foldl (fun m kv =>
    match kv.value.string_value with
    | some v => attrInsert m kv.key v
    | none =>
      match kv.value.int_value with
      | some v => attrInsert m kv.key v
      | none =>
        match kv.value.double_value with
        | some v => attrInsert m kv.key (toString v)
        | none =>
          match kv.value.bool_value with
          | some v => attrInsert m kv.key (toString v)
          | none => m) []

/-- Value of a standard-base64 alphabet character. -/
def b64Val (c : Char) : Option Nat :=
  if 'A' ≤ c && c ≤ 'Z' then some (c.toNat - 65)
  else if 'a' ≤ c && c ≤ 'z' then some (c.toNat - 97 + 26)
  else if '0' ≤ c && c ≤ '9' then some (c.toNat - 48 + 52)
  else if c == '+' then some 62
  else if c == '/' then some 63
  else none

/-- `base64::engine::general_purpose::STANDARD.decode`: canonical padding
required (length a multiple of 4, `=` only at the end), non-zero trailing
bits rejected. -/
def b64Decode : List Char → Option (List Nat)
  | [] => some []
  | c1 :: c2 :: c3 :: c4 :: rest => do
    let v1 ← b64Val c1
    let v2 ← b64Val c2
    if c3 == '=' then
      if c4 == '=' && rest.isEmpty && v2 % 16 == 0 then
        some [v1 * 4 + v2 / 16]
      else none
    else do
      let v3 ← b64Val c3
      if c4 == '=' then
        if rest.isEmpty && v3 % 4 == 0 then
          some [v1 * 4 + v2 / 16, v2 % 16 * 16 + v3 / 4]
        else none
      else do
        let v4 ← b64Val c4
        let tail ← b64Decode rest
        some ([v1 * 4 + v2 / 16, v2 % 16 * 16 + v3 / 4, v3 % 4 * 64 + v4] ++ tail)
  | _ => none

def hexDigit (n : Nat) : Char :=
  if n < 10 then Char.ofNat (48 + n) else Char.ofNat (97 + n - 10)

/-- `hex::encode` (lower-case). -/
def hexEncode (bytes : List Nat) : String :=
  ⟨(bytes.map (fun b => [hexDigit (b / 16), hexDigit (b % 16)])).flatten⟩

/-- `decode_id` from src/models/span.rs. -/
def decode_id (s : String) : String :=
  match b64Decode s.toList with
  | some bytes => hexEncode bytes
  | none => s

/-- `str::parse::<i64>()`: optional sign, at least one ASCII digit, nothing
else, within the `i64` range. -/
def parseI64 (s : String) : Option Int :=
  let chars := s.toList
  let core : List Char → Option Nat := fun ds =>
    if ds.isEmpty || !(ds.all Char.isDigit) then none
    else some (ds.foldl (fun acc c => acc * 10 + (c.toNat - 48)) 0)
  match chars with
  | '+' :: rest => (core rest).bind fun n =>
      if n ≤ 9223372036854775807 then some (n : Int) else none
  | '-' :: rest => (core rest).bind fun n =>
      if n ≤ 9223372036854775808 then some (-(n : Int)) else none
  | _ => (core chars).bind fun n =>
      if n ≤ 9223372036854775807 then some (n : Int) else none

/-- A row of the `spans` table as written by `insert_otlp_batch`.  The
JSON-text columns (`attributes_json`, `events_json`,
`resource_attributes_json`) are modelled by the serialized values
themselves (serde serialization is injective and no claim inspects the
text); `happened_at` is modelled by the value it is derived from. -/
structure SpanRow where
  project_id : Option Int
  trace_id : String
  span_id : String
  parent_span_id : Option String
  start_time_unix_nano : Int
  end_time_unix_nano : Int
  duration_ms : ℚ
  name : String
  kind : Int
  status_code : Int
  status_message : Option String
  span_category : String
  root_span_type : Option String
  service_name : Option String
  http_method : Option String
  http_url : Option String
  http_status_code : Option Int
  db_system : Option String
  db_statement : Option String
  db_operation : Option String
  messaging_system : Option String
  messaging_operation : Option String
  request_id : Option String
  attributes_json : AttrMap
  events_json : Option (List SpanEvent)
  resource_attributes_json : AttrMap
  happened_at : Int
deriving Repr, DecidableEq

/-- The spans table; `INSERT OR REPLACE` keyed by `(trace_id, span_id)`
removes any conflicting row and appends the new one. -/
abbrev SpansTable := List SpanRow

def upsertSpan (st : SpansTable) (row : SpanRow) : SpansTable :=
  (st.filter (fun r =>
    !(r.trace_id == row.trace_id && r.span_id == row.span_id))) ++ [row]

/-- Rust `s.parse::<i32>().ok()` for the http status attribute; the i32
range check is irrelevant at the inputs considered, the syntax is the
same as for i64. -/
def parseHttpStatus (s : String) : Option Int := parseI64 s

/-- The per-span translation of `insert_otlp_batch` (everything inside the
innermost loop up to the SQL write); fails exactly when a timestamp does
not parse as `i64`. -/
def rowOfOtlpSpan (project_id : Option Int) (service_name : Option String)
    (resource_attrs : AttrMap) (otlp_span : OtlpSpan) : Except String SpanRow := do
  let attrs := parse_attributes otlp_span.attributes
  let kind := otlp_span.kind.getD 0
  let category := SpanCategory.from_attributes otlp_span.name kind attrs
  let is_root := otlp_span.parent_span_id.isNone
    || (otlp_span.parent_span_id.map (fun s => strIsEmpty s)).getD true
  let root_span_type := if is_root then RootSpanType.from_category category else none
  let trace_id := decode_id otlp_span.trace_id
  let span_id := decode_id otlp_span.span_id
  let parent_span_id := ((otlp_span.parent_span_id.filter (fun s => !strIsEmpty s)).map
    (fun s => decode_id s))
  let start_nano ← match parseI64 otlp_span.start_time_unix_nano with
    | some n => Except.ok n
    | none => Except.error "invalid digit found in string"
  let end_nano ← match parseI64 otlp_span.end_time_unix_nano with
    | some n => Except.ok n
    | none => Except.error "invalid digit found in string"
  let duration_ms : ℚ := ((end_nano - start_nano : Int) : ℚ) / 1000000
  let status_code := (otlp_span.status.bind (·.code)).getD 0
  let status_message := otlp_span.status.bind (·.message)
  let http_method := (attrs.get "http.method").or (attrs.get "http.request.method")
  let http_url := ((attrs.get "http.url").or (attrs.get "url.full")).or
    (attrs.get "http.target")
  let http_status := ((attrs.get "http.status_code").or
    (attrs.get "http.response.status_code")).bind parseHttpStatus
  pure
    { project_id := project_id
      trace_id := trace_id
      span_id := span_id
      parent_span_id := parent_span_id
      start_time_unix_nano := start_nano
      end_time_unix_nano := end_nano
      duration_ms := duration_ms
      name := otlp_span.name
      kind := kind
      status_code := status_code
      status_message := status_message
      span_category := category.as_str
      root_span_type := root_span_type.map RootSpanType.as_str
      service_name := service_name
      http_method := http_method
      http_url := http_url
      http_status_code := http_status
      db_system := attrs.get "db.system"
      db_statement := attrs.get "db.statement"
      db_operation := attrs.get "db.operation"
      messaging_system := attrs.get "messaging.system"
      messaging_operation := (attrs.get "messaging.operation").or
        (attrs.get "messaging.destination.name")
      request_id := (attrs.get "http.request_id").or (attrs.get "request_id")
      attributes_json := attrs
      events_json := otlp_span.events
      resource_attributes_json := resource_attrs
      happened_at := start_nano }

/-- The inner span loop of `insert_otlp_batch`: spans are written one by
one (each `conn.execute` commits on its own — there is no enclosing
transaction), and the `?` on a parse failure aborts, leaving the writes
already performed in place. -/
def insertSpanList (project_id : Option Int) (service_name : Option String)
    (resource_attrs : AttrMap) (st : SpansTable) (count : Nat) :
    List OtlpSpan → SpansTable × Except String Nat
  | [] => (st, Except.ok count)
  | s :: rest =>
    match rowOfOtlpSpan project_id service_name resource_attrs s with
    | Except.error e => (st, Except.error e)
    | Except.ok row =>
      insertSpanList project_id service_name resource_attrs
        (upsertSpan st row) (count + 1) rest

/-- The resource-group loop of `insert_otlp_batch`. -/
def insertResourceList (project_id : Option Int) (st : SpansTable) (count : Nat) :
    List ResourceSpans → SpansTable × Except String Nat
  | [] => (st, Except.ok count)
  | rs :: rest =>
    let resource_attrs := parse_attributes (rs.resource.bind (·.attributes))
    let service_name := resource_attrs.get "service.name"
    match rs.scope_spans with
    | none => insertResourceList project_id st count rest
    | some scope_spans =>
      match insertSpanList project_id service_name resource_attrs st count
          ((scope_spans.map (·.spans)).flatten) with
      | (st', Except.ok count') => insertResourceList project_id st' count' rest
      | (st', Except.error e) => (st', Except.error e)

/-- `insert_otlp_batch` from src/models/span.rs, returning the table state
after the call together with the source's return value. -/
def insert_otlp_batch (st : SpansTable) (request : OtlpTraceRequest)
    (project_id : Option Int) : SpansTable × Except String Nat :=
  insertResourceList project_id st 0 request.resource_spans

/-- The per-span translation results of a batch, in traversal order (used to
characterize `insert_otlp_batch`). -/
def resourceRowResults (project_id : Option Int) (rss : List ResourceSpans) :
    List (Except String SpanRow) :=
  (rss.map (fun rs =>
    match rs.scope_spans with
    | none => []
    | some scope_spans =>
      let resource_attrs := parse_attributes (rs.resource.bind (·.attributes))
      let service_name := resource_attrs.get "service.name"
      ((scope_spans.map (·.spans)).flatten).map
        (rowOfOtlpSpan project_id service_name resource_attrs))).flatten

def batchRowResults (project_id : Option Int) (request : OtlpTraceRequest) :
    List (Except String SpanRow) :=
  resourceRowResults project_id request.resource_spans

/-- The rows before the first failing translation. -/
def okRows (results : List (Except String SpanRow)) : List SpanRow :=
  (results.takeWhile (fun r => r.isOk)).filterMap (fun r => r.toOption)

def applyRows (st : SpansTable) (rows : List SpanRow) : SpansTable :=
  rows.foldl upsertSpan st

/-- The first translation error of a batch, if any. -/
def firstErr (results : List (Except String SpanRow)) : Option String :=
  results.findSome? (fun r => match r with
    | Except.error e => some e
    | Except.ok _ => none)

/-- The root-type consistency property of a stored row (claim C9 / spec P2):
`root_span_type` is the mapped root type of the stored category when the
stored parent is null, and null otherwise. -/
def rootTypeOk (row : SpanRow) : Prop :=
  row.root_span_type =
    if row.parent_span_id = none then
      (RootSpanType.from_category (SpanCategory.from_str row.span_category)).map
        RootSpanType.as_str
    else none

-- ===========================================================================
-- Ingest auth middleware (src/api/auth.rs)
-- ===========================================================================

inductive AuthResult where
  | ok (project_id : Option Int)
  | unauthorized
  | serverError
deriving Repr, DecidableEq

/-- The `ENABLE_PROJECTS` truthiness test of `auth_middleware`. -/
def envTruthy : Option String → Bool
  | some v => v == "1" || strToLower v == "true"
  | none => false

/-- `auth_middleware` from src/api/auth.rs as a pure function of the
request header, the two environment variables it reads, and the two
storage lookups it performs (`project::find_by_api_key` returning the
project id if any, and the legacy `api_key::verify`); `Except Unit`
models a storage failure. -/
def auth_middleware (enable_projects : Option String)
    (mini_apm_api_key : Option String)
    (find_by_api_key : String → Except Unit (Option Int))
    (legacy_verify : String → Except Unit Bool)
    (auth_header : Option String) : AuthResult :=
  match auth_header with
  | none => AuthResult.unauthorized
  | some h =>
    if !(strStartsWith h "Bearer ") then AuthResult.unauthorized
    else
      let api_key := strDrop h 7
      let fallback : AuthResult :=
        let legacy : AuthResult :=
          match legacy_verify api_key with
          | Except.ok true => AuthResult.ok none
          | Except.ok false => AuthResult.unauthorized
          | Except.error _ => AuthResult.serverError
        match mini_apm_api_key with
        | some env_key => if api_key == env_key then AuthResult.ok none else legacy
        | none => legacy
      if envTruthy enable_projects then
        match find_by_api_key api_key with
        | Except.ok (some pid) => AuthResult.ok (some pid)
        | Except.ok none => fallback
        | Except.error _ => AuthResult.serverError
      else fallback

-- ===========================================================================
-- Retention cleanup job (src/jobs/retention.rs, src/jobs/mod.rs)
-- ===========================================================================

inductive RetentionCategory where
  | spans
  | errorOccurrences
  | hourlyRollups
  | deploys
  | vacuum
deriving Repr, DecidableEq

/-- Abstract outcomes of the five storage operations `cleanup` performs
(whether each would succeed if attempted), plus whether the run happens
on a Sunday (the vacuum condition). -/
structure RetentionOutcomes where
  spans_ok : Bool
  errors_ok : Bool
  hourly_ok : Bool
  deploys_ok : Bool
  vacuum_ok : Bool
  is_sunday : Bool
deriving Repr, DecidableEq

/-- `cleanup` from src/jobs/retention.rs: the four deletions and the
conditional vacuum in source order, every step behind `?`.  Returns the
list of operations attempted during the run and the run's result (the
surrounding loop in src/jobs/mod.rs logs an `Err` and retries on the
next tick). -/
def retentionCleanup (o : RetentionOutcomes) :
    List RetentionCategory × Except Unit Unit :=
  if !o.spans_ok then ([RetentionCategory.spans], Except.error ())
  else if !o.errors_ok then
    ([RetentionCategory.spans, RetentionCategory.errorOccurrences], Except.error ())
  else if !o.hourly_ok then
    ([RetentionCategory.spans, RetentionCategory.errorOccurrences,
      RetentionCategory.hourlyRollups], Except.error ())
  else if !o.deploys_ok then
    ([RetentionCategory.spans, RetentionCategory.errorOccurrences,
      RetentionCategory.hourlyRollups, RetentionCategory.deploys], Except.error ())
  else if o.is_sunday then
    if !o.vacuum_ok then
      ([RetentionCategory.spans, RetentionCategory.errorOccurrences,
        RetentionCategory.hourlyRollups, RetentionCategory.deploys,
        RetentionCategory.vacuum], Except.error ())
    else
      ([RetentionCategory.spans, RetentionCategory.errorOccurrences,
        RetentionCategory.hourlyRollups, RetentionCategory.deploys,
        RetentionCategory.vacuum], Except.ok ())
  else
    ([RetentionCategory.spans, RetentionCategory.errorOccurrences,
      RetentionCategory.hourlyRollups, RetentionCategory.deploys], Except.ok ())

-- ===========================================================================
-- Error store (src/models/error.rs)
-- ===========================================================================

structure IncomingSourceContext where
  file : String
  lineno : Int
  pre_context : Option (List String)
  context_line : String
  post_context : Option (List String)
deriving Repr, DecidableEq

structure SourceContext where
  file : String
  lineno : Int
  pre_context : List String
  context_line : String
  post_context : List String
deriving Repr, DecidableEq

/-- `IncomingError`; `params` (a `serde_json::Value`) is modelled by its
serialized text. -/
structure IncomingError where
  exception_class : String
  message : String
  backtrace : List String
  fingerprint : String
  request_id : Option String
  user_id : Option String
  params : Option String
  timestamp : Option String
  source_context : Option IncomingSourceContext
deriving Repr, DecidableEq

structure ErrorGroupRow where
  id : Int
  project_id : Option Int
  fingerprint : String
  exception_class : String
  message : String
  first_seen_at : String
  last_seen_at : String
  occurrence_count : Nat
  status : String
deriving Repr, DecidableEq

structure OccurrenceRow where
  error_id : Int
  request_id : Option String
  user_id : Option String
  backtrace : List String
  params : Option String
  happened_at : String
  source_context : Option SourceContext
deriving Repr, DecidableEq

/-- The `errors` and `error_occurrences` tables; `next_id` models SQLite
row-id allocation (`last_insert_rowid`). -/
structure ErrorsState where
  groups : List ErrorGroupRow
  occs : List OccurrenceRow
  next_id : Int
deriving Repr, DecidableEq

def SIMILARITY_THRESHOLD : ℚ := 1 / 2

/-- `str::split` with a character predicate: the pieces between separator
characters, empty pieces included. -/
def splitPred (l : List Char) (p : Char → Bool) : List (List Char) :=
  match l with
  | [] => [[]]
  | c :: rest =>
    if p c then [] :: splitPred rest p
    else
      match splitPred rest p with
      | [] => [[c]]
      | w :: ws => (c :: w) :: ws

/-- The word-set normalization inside `text_similarity`: lower-case, split
on non-alphanumeric characters, drop empties (the `HashSet` is modelled by
deduplication). -/
def wordsOfMsg (s : String) : List String :=
  (((splitPred (strToLower s).toList (fun c => !c.isAlphanum)).map
      (fun w => (⟨w⟩ : String))).filter (fun w => !strIsEmpty w)).dedup

/-- `text_similarity` from src/models/error.rs (Jaccard over word sets);
the `f64` ratio is modelled as `ℚ` (the threshold comparison at 1/2 is
exact for the set sizes that occur). -/
def text_similarity (a b : String) : ℚ :=
  let words_a := wordsOfMsg a
  let words_b := wordsOfMsg b
  if words_a.isEmpty && words_b.isEmpty then 1
  else if words_a.isEmpty || words_b.isEmpty then 0
  else
    let intersection := (words_a.filter (fun w => words_b.contains w)).length
    let union := (words_a ++ words_b.filter (fun w => !words_a.contains w)).length
    if union = 0 then 0 else (intersection : ℚ) / (union : ℚ)

def skip_patterns : List String :=
  ["/gems/", "/vendor/", "/ruby/", "/lib/ruby/", "node_modules/", "/usr/lib/",
   "/usr/local/lib/", "<internal:", "(eval)", "(irb)", "/activerecord-",
   "/activesupport-", "/actionpack-", "/rack-", "/railties-", "/bundler/"]

/-- `frame.rfind(":in ")`-based suffix strip (char positions stand in for
byte positions; the frames involved are ASCII). -/
def stripMethodSuffix (frame : String) : String :=
  let l := frame.toList
  let pat := (":in ").toList
  match ((List.range (l.length + 1)).filter
      (fun i => pat.isPrefixOf (l.drop i))).max? with
  | some i => ⟨l.take i⟩
  | none => frame

/-- Rust `str::trim` (strip leading and trailing whitespace). -/
def strTrim (s : String) : String :=
  ⟨((s.toList.dropWhile isRustWhitespace).reverse.dropWhile
      isRustWhitespace).reverse⟩

/-- `extract_error_location` from src/models/error.rs. -/
def extract_error_location (backtrace : List String) : Option String :=
  match backtrace.find? (fun frame =>
      !(skip_patterns.any (fun p => strContains frame p))
        && !strIsEmpty (strTrim frame)) with
  | some frame => some (stripMethodSuffix frame)
  | none => backtrace.head?.map stripMethodSuffix

/-- `generate_location_fingerprint` from src/models/error.rs. -/
def generate_location_fingerprint (exception_class : String)
    (backtrace : List String) : String :=
  exception_class ++ ":" ++ ((extract_error_location backtrace).getD "")

/-- `find_similar_error` from src/models/error.rs: among the groups with
the location fingerprint (and the same project), the first whose message
is at least 50% similar. -/
def find_similar_error (groups : List ErrorGroupRow) (project_id : Option Int)
    (location_fingerprint : String) (message : String) : Option Int :=
  ((groups.filter (fun g =>
      g.fingerprint == location_fingerprint && g.project_id == project_id)).find?
    (fun g => SIMILARITY_THRESHOLD ≤ text_similarity message g.message)).map (·.id)

/-- The `UPDATE errors SET last_seen_at = ?, occurrence_count =
occurrence_count + 1 WHERE id = ?` statement. -/
def bumpGroup (groups : List ErrorGroupRow) (id : Int) (timestamp : String) :
    List ErrorGroupRow :=
  groups.map (fun g =>
    if g.id == id then
      { g with last_seen_at := timestamp, occurrence_count := g.occurrence_count + 1 }
    else g)

/-- `insert` from src/models/error.rs (`error::insert`): exact-fingerprint
update, else similarity merge, else new group; always appends one
occurrence row linked to the resulting group id.  Returns the new state
and the returned group id. -/
def errorInsert (st : ErrorsState) (error : IncomingError)
    (project_id : Option Int) (now : String) : ErrorsState × Int :=
  let timestamp := (error.timestamp).getD now
  let location_fingerprint :=
    generate_location_fingerprint error.exception_class error.backtrace
  let existing := (st.groups.find? (fun g =>
    g.fingerprint == error.fingerprint && g.project_id == project_id)).map (·.id)
  let st1 : ErrorsState × Int :=
    match existing with
    | some id => ({ st with groups := bumpGroup st.groups id timestamp }, id)
    | none =>
      match find_similar_error st.groups project_id location_fingerprint
          error.message with
      | some id => ({ st with groups := bumpGroup st.groups id timestamp }, id)
      | none =>
        ({ st with
            groups := st.groups ++
              [{ id := st.next_id
                 project_id := project_id
                 fingerprint := location_fingerprint
                 exception_class := error.exception_class
                 message := error.message
                 first_seen_at := timestamp
                 last_seen_at := timestamp
                 occurrence_count := 1
                 status := "open" }]
            next_id := st.next_id + 1 }, st.next_id)
  let source_context := error.source_context.map (fun sc =>
    { file := sc.file
      lineno := sc.lineno
      pre_context := sc.pre_context.getD []
      context_line := sc.context_line
      post_context := sc.post_context.getD [] : SourceContext })
  ({ st1.1 with
      occs := st1.1.occs ++
        [{ error_id := st1.2
           request_id := error.request_id
           user_id := error.user_id
           backtrace := error.backtrace
           params := error.params
           happened_at := timestamp
           source_context := source_context }] }, st1.2)

/-- `delete_occurrences_before` from src/models/error.rs: deletes old
occurrence rows; the `errors` table is not touched. -/
def delete_occurrences_before (st : ErrorsState) (before : String) : ErrorsState :=
  { st with occs := st.occs.filter (fun o => !strLt o.happened_at before) }

/-- The claimed invariant: every group's `occurrence_count` equals the
number of occurrence rows linked to it. -/
def occCountInv (st : ErrorsState) : Bool :=
  st.groups.all (fun g =>
    g.occurrence_count == (st.occs.filter (fun o => o.error_id == g.id)).length)

/-- Structural discipline the database guarantees: distinct group ids, all
below the next allocated row id, no occurrence row pointing at an
unallocated id. -/
def errorsWF (st : ErrorsState) : Prop :=
  (st.groups.map (·.id)).Nodup ∧ (∀ g ∈ st.groups, g.id < st.next_id) ∧
    (∀ o ∈ st.occs, o.error_id < st.next_id)

-- ===========================================================================
-- Proof-support definitions
-- ===========================================================================

/-- The characters after which `normalize_sql` treats a digit as starting a
numeric literal. -/
def isTrig (c : Char) : Bool := c == ' ' || c == '=' || c == '(' || c == ','

/-- "No digit after a trigger position", scanning forward; `flag` is the
trigger status of the position before the list (true at start of string). -/
def NDAT (flag : Bool) : List Char → Prop
  | [] => True
  | c :: rest => (c.isDigit = true → flag = false) ∧ NDAT (isTrig c) rest

/-- The same condition on a reversed accumulator (as built by `scanSql`). -/
def goodRev : List Char → Prop
  | [] => True
  | c :: rest => (c.isDigit = true → numTrigger rest = false) ∧ goodRev rest

def noQuote (l : List Char) : Prop := ∀ c ∈ l, c ≠ '\'' ∧ c ≠ '"'

/-- All whitespace characters are plain spaces. -/
def wsSpace (l : List Char) : Prop :=
  ∀ c ∈ l, isRustWhitespace c = true → c = ' '

/-- Whitespace collapsing as a single left-to-right pass: `pend` records a
pending whitespace run to be rendered as one space before the next word
character.  `joinWords (wordsAux m [])` equals
`collapseAux (m.dropWhile isRustWhitespace) false` (proved below). -/
def collapseAux : List Char → Bool → List Char
  | [], _ => []
  | c :: rest, pend =>
    if isRustWhitespace c then collapseAux rest true
    else if pend then ' ' :: c :: collapseAux rest false
    else c :: collapseAux rest false

/-- The trigger status after scanning `xs` forward, starting from `flag`:
the trigger status of the last character, or `flag` if `xs` is empty. -/
def lastFlag (flag : Bool) (xs : List Char) : Bool :=
  match xs.getLast? with
  | none => flag
  | some d => isTrig d

-- ===========================================================================
-- Concrete inputs used by counterexamples and witnesses
-- ===========================================================================

/-- The duration list 1..100 ms of spec §8 S6. -/
def durations1to100 : List ℚ := (List.range 100).map (fun i => ((i + 1 : Nat) : ℚ))

/-- A single-span trace whose parent link does not resolve in the trace. -/
def danglingRow : TraceRow :=
  { id := 1, span_id := "a", parent_span_id := some "zzz", name := "op",
    span_category := "internal", duration_ms := 10, start_time_unix_nano := 0,
    status_code := 0, http_method := none, http_status_code := none,
    db_operation := none, db_system := none, db_statement := none }

def exOtlpSpan (sid : String) (start : String) : OtlpSpan :=
  { trace_id := "t-1", span_id := sid, parent_span_id := none, name := "GET /",
    kind := some 2, start_time_unix_nano := start, end_time_unix_nano := "2000",
    attributes := some [⟨"http.method", ⟨some "GET", none, none, none⟩⟩],
    events := none, status := none }

/-- A batch whose second span has an unparseable start timestamp. -/
def exBadBatch : OtlpTraceRequest :=
  ⟨[⟨none, some [⟨none, [exOtlpSpan "s-1" "1000", exOtlpSpan "s-2" "oops"]⟩]⟩]⟩

def exIncomingError : IncomingError :=
  { exception_class := "RuntimeError", message := "boom",
    backtrace := ["app/models/user.rb:10"], fingerprint := "fp1",
    request_id := none, user_id := none, params := none,
    timestamp := some "2024-01-01T00:00:00Z", source_context := none }

def exDbSpan (sid : String) (stmt : String) : SpanDisplay :=
  { id := 0, span_id := sid, parent_span_id := none, name := sid,
    category := SpanCategory.db, duration_ms := 2, offset_ms := 0,
    offset_percent := 0, width_percent := 0, depth := 0, status_code := 0,
    http_method := none, http_status_code := none, db_operation := none,
    db_system := none, db_statement := some stmt }

/-- Six db spans differing only in a literal id (spec §8 S5). -/
def exNPlus1Spans : List SpanDisplay :=
  [exDbSpan "s0" "SELECT * FROM users WHERE id = 10",
   exDbSpan "s1" "SELECT * FROM users WHERE id = 11",
   exDbSpan "s2" "SELECT * FROM users WHERE id = 12",
   exDbSpan "s3" "SELECT * FROM users WHERE id = 13",
   exDbSpan "s4" "SELECT * FROM users WHERE id = 14",
   exDbSpan "s5" "SELECT * FROM users WHERE id = 15"]

section

-- `Batteries` marks the rational operations `@[irreducible]`, which blocks
-- the evaluation of concrete witnesses; restore the default transparency.
attribute [local semireducible] Rat.mul Rat.add Rat.sub Rat.inv

-- ===========================================================================
-- C2: percentiles of [1..100]
-- ===========================================================================

/-- C2, counterexample.  The claim (and spec §8 S6) says the duration list
[1,2,…,100] yields p95 = 96 under the program's rule
`index = round(q × (n−1))`; in fact `round(0.95 × 99) = round(94.05) = 94`
and the 0-based element 94 of the sorted list is 95, not 96. -/
theorem c2_counterexample : ¬ calculate_percentile durations1to100 95 = 96 := by
  decide

/-- C2, amended: under the program's percentile rule the duration list
[1,2,…,100] yields p95 = 95 and p99 = 99, both by `calculate_percentile`
and by the p95/p99 indices of `latency_stats_since`. -/
theorem c2_percentiles : calculate_percentile durations1to100 95 = 95 ∧
    calculate_percentile durations1to100 99 = 99 ∧
    (latency_stats_since durations1to100).p95_ms = 95 ∧
    (latency_stats_since durations1to100).p99_ms = 99 := by
  refine ⟨by decide, by decide, by decide, by decide⟩

-- ===========================================================================
-- C5: retention cleanup error handling
-- ===========================================================================

/-- C5, counterexample.  When deleting old spans fails, the retention run
returns the error immediately: the error-occurrence, rollup and deploy
deletions are not attempted in that run, contrary to the claimed
swallow-and-continue behavior. -/
theorem c5_counterexample :
    (retentionCleanup ⟨false, true, true, true, true, false⟩).2 = Except.error () ∧
    (retentionCleanup ⟨false, true, true, true, true, false⟩).1 =
      [RetentionCategory.spans] :=
  ⟨rfl, rfl⟩

/-- C5, amended: within one retention run the categories are attempted in
source order and the run aborts at the first failing category (the `?`
operator propagates the error); the surrounding job loop merely logs the
failed run and retries on the next tick. -/
theorem c5_retention_aborts_on_first_failure (o : RetentionOutcomes) :
    ((retentionCleanup o).2.isOk =
      (o.spans_ok && o.errors_ok && o.hourly_ok && o.deploys_ok &&
        (!o.is_sunday || o.vacuum_ok))) ∧
    (o.spans_ok = false → (retentionCleanup o).1 = [RetentionCategory.spans]) ∧
    (o.spans_ok = true → o.errors_ok = false →
      (retentionCleanup o).1 =
        [RetentionCategory.spans, RetentionCategory.errorOccurrences]) ∧
    (o.spans_ok = true → o.errors_ok = true → o.hourly_ok = false →
      (retentionCleanup o).1 =
        [RetentionCategory.spans, RetentionCategory.errorOccurrences,
         RetentionCategory.hourlyRollups]) ∧
    (o.spans_ok = true → o.errors_ok = true → o.hourly_ok = true →
      o.deploys_ok = false →
      (retentionCleanup o).1 =
        [RetentionCategory.spans, RetentionCategory.errorOccurrences,
         RetentionCategory.hourlyRollups, RetentionCategory.deploys]) := by
  rcases o with ⟨s, e, h, d, v, su⟩
  cases s <;> cases e <;> cases h <;> cases d <;> cases v <;> cases su <;> decide

/-- C5, witness for the amended theorem: with the error-occurrence deletion
failing, exactly spans and error occurrences are attempted. -/
theorem c5_retention_witness :
    (retentionCleanup ⟨true, false, true, true, true, false⟩).1 =
      [RetentionCategory.spans, RetentionCategory.errorOccurrences] :=
  (c5_retention_aborts_on_first_failure
    ⟨true, false, true, true, true, false⟩).2.2.1 rfl rfl

-- ===========================================================================
-- C4: ingest auth middleware
-- ===========================================================================

/-- C4, counterexample.  A request whose bearer key is not a known project
API key (the project lookup returns no project for any key) is accepted via
the `MINI_APM_API_KEY` environment fallback — contradicting the claimed
project-key-only behavior (spec §9 records that the source disagrees with
the spec's adopted variant here). -/
theorem c4_counterexample :
    auth_middleware (some "1") (some "sekret") (fun _ => Except.ok none)
      (fun _ => Except.ok false) (some "Bearer sekret") = AuthResult.ok none ∧
    AuthResult.ok none ≠ AuthResult.unauthorized :=
  ⟨rfl, by decide⟩

/-- C4, amended: the middleware rejects with 401 when the Authorization
header is absent or lacks the `Bearer ` prefix; a key is accepted when it
is a known project key (with projects enabled); otherwise the middleware
falls back first to the `MINI_APM_API_KEY` environment secret and then to
the legacy `api_keys` store, and rejects with 401 only when all of these
reject the key. -/
theorem c4_auth_behaviour (ep mk : Option String)
    (f : String → Except Unit (Option Int)) (lv : String → Except Unit Bool) :
    (auth_middleware ep mk f lv none = AuthResult.unauthorized) ∧
    (∀ h : String, strStartsWith h "Bearer " = false →
      auth_middleware ep mk f lv (some h) = AuthResult.unauthorized) ∧
    (∀ h : String, ∀ pid : Int, strStartsWith h "Bearer " = true →
      envTruthy ep = true → f (strDrop h 7) = Except.ok (some pid) →
      auth_middleware ep mk f lv (some h) = AuthResult.ok (some pid)) ∧
    (∀ h : String, strStartsWith h "Bearer " = true →
      (envTruthy ep = false ∨ f (strDrop h 7) = Except.ok none) →
      mk = some (strDrop h 7) →
      auth_middleware ep mk f lv (some h) = AuthResult.ok none) ∧
    (∀ h : String, strStartsWith h "Bearer " = true →
      (envTruthy ep = false ∨ f (strDrop h 7) = Except.ok none) →
      (∀ k, mk = some k → (strDrop h 7 == k) = false) →
      lv (strDrop h 7) = Except.ok true →
      auth_middleware ep mk f lv (some h) = AuthResult.ok none) ∧
    (∀ h : String, strStartsWith h "Bearer " = true →
      (envTruthy ep = false ∨ f (strDrop h 7) = Except.ok none) →
      (∀ k, mk = some k → (strDrop h 7 == k) = false) →
      lv (strDrop h 7) = Except.ok false →
      auth_middleware ep mk f lv (some h) = AuthResult.unauthorized) := by
  refine ⟨rfl, ?_, ?_, ?_, ?_, ?_⟩
  · intro h hpre
    simp [auth_middleware, hpre]
  · intro h pid hpre hep hf
    simp [auth_middleware, hpre, hep, hf]
  · intro h hpre hfb hmk
    rcases hfb with hep | hf
    · simp [auth_middleware, hpre, hep, hmk]
    · rcases hep : envTruthy ep
      · simp [auth_middleware, hpre, hep, hmk]
      · simp [auth_middleware, hpre, hep, hf, hmk]
  · intro h hpre hfb hmk hlv
    rcases hfb with hep | hf
    · cases mk with
      | none => simp [auth_middleware, hpre, hep, hlv]
      | some k => simp [auth_middleware, hpre, hep, hlv, hmk k rfl]
    · rcases hep : envTruthy ep
      · cases mk with
        | none => simp [auth_middleware, hpre, hep, hlv]
        | some k => simp [auth_middleware, hpre, hep, hlv, hmk k rfl]
      · cases mk with
        | none => simp [auth_middleware, hpre, hep, hf, hlv]
        | some k => simp [auth_middleware, hpre, hep, hf, hlv, hmk k rfl]
  · intro h hpre hfb hmk hlv
    rcases hfb with hep | hf
    · cases mk with
      | none => simp [auth_middleware, hpre, hep, hlv]
      | some k => simp [auth_middleware, hpre, hep, hlv, hmk k rfl]
    · rcases hep : envTruthy ep
      · cases mk with
        | none => simp [auth_middleware, hpre, hep, hlv]
        | some k => simp [auth_middleware, hpre, hep, hlv, hmk k rfl]
      · cases mk with
        | none => simp [auth_middleware, hpre, hep, hf, hlv]
        | some k => simp [auth_middleware, hpre, hep, hf, hlv, hmk k rfl]

/-- C4, witness for the amended theorem: a request without the `Bearer `
prefix is rejected. -/
theorem c4_auth_witness :
    auth_middleware (some "1") none (fun _ => Except.ok none)
      (fun _ => Except.ok false) (some "Token abc") = AuthResult.unauthorized :=
  (c4_auth_behaviour (some "1") none (fun _ => Except.ok none)
    (fun _ => Except.ok false)).2.1 "Token abc" rfl

-- ===========================================================================
-- C8: depth computation on cyclic parent maps
-- ===========================================================================

/-- C8.  On a parent map with a self-cycle the depth recursion of
`get_trace` exhausts every fuel bound: the source recursion (which has no
fuel and no visited set — the memo cache is written only after the
recursive call returns) never terminates, contradicting the claimed
total-function behavior with depth 0 on re-entry. -/
theorem c8_cycle_divergence (pm : List (String × Option String)) (s : String)
    (h : parentOf pm s = some s) :
    ∀ fuel, computeDepth fuel pm s = none := by
  intro fuel
  induction fuel with
  | zero => rfl
  | succ f ih =>
    have hpm : pmLookup pm s = some (some s) := by
      unfold parentOf at h
      rcases hl : pmLookup pm s with _ | p
      · simp [hl] at h
      · rcases p with _ | q
        · simp [hl] at h
        · simp [hl] at h
          simp [hl, h]
    simp [computeDepth, hpm, ih]

/-- C8, witness: the single-span trace whose span `"a"` has itself as
parent defeats every fuel bound. -/
theorem c8_cycle_witness : computeDepth 5 [("a", some "a")] "a" = none :=
  c8_cycle_divergence [("a", some "a")] "a" rfl 5

-- ===========================================================================
-- C3: batch ingestion aborts without rollback
-- ===========================================================================

theorem okRows_cons_ok (row : SpanRow) (rs : List (Except String SpanRow)) :
    okRows (Except.ok row :: rs) = row :: okRows rs := rfl

theorem okRows_cons_err (e : String) (rs : List (Except String SpanRow)) :
    okRows (Except.error e :: rs) = [] := rfl

theorem firstErr_cons_ok (row : SpanRow) (rs : List (Except String SpanRow)) :
    firstErr (Except.ok row :: rs) = firstErr rs := rfl

theorem firstErr_cons_err (e : String) (rs : List (Except String SpanRow)) :
    firstErr (Except.error e :: rs) = some e := rfl

theorem okRows_append (l₁ l₂ : List (Except String SpanRow)) :
    okRows (l₁ ++ l₂) =
      if firstErr l₁ = none then okRows l₁ ++ okRows l₂ else okRows l₁ := by
  induction l₁ with
  | nil => simp [okRows, firstErr]
  | cons r rest ih =>
    cases r with
    | ok row =>
      rw [List.cons_append, okRows_cons_ok, okRows_cons_ok, firstErr_cons_ok, ih]
      split <;> simp
    | error e =>
      rw [List.cons_append, okRows_cons_err, okRows_cons_err, firstErr_cons_err]
      simp

theorem firstErr_append (l₁ l₂ : List (Except String SpanRow)) :
    firstErr (l₁ ++ l₂) =
      match firstErr l₁ with
      | some e => some e
      | none => firstErr l₂ := by
  induction l₁ with
  | nil => simp [firstErr]
  | cons r rest ih =>
    cases r with
    | ok row =>
      rw [List.cons_append, firstErr_cons_ok, firstErr_cons_ok, ih]
    | error e =>
      rw [List.cons_append, firstErr_cons_err, firstErr_cons_err]

theorem insertSpanList_eq (pid : Option Int) (sn : Option String) (ra : AttrMap) :
    ∀ (spans : List OtlpSpan) (st : SpansTable) (count : Nat),
    insertSpanList pid sn ra st count spans =
      (applyRows st (okRows (spans.map (rowOfOtlpSpan pid sn ra))),
       match firstErr (spans.map (rowOfOtlpSpan pid sn ra)) with
       | some e => Except.error e
       | none => Except.ok (count + spans.length)) := by
  intro spans
  induction spans with
  | nil => intro st count; simp [insertSpanList, okRows, firstErr, applyRows]
  | cons s rest ih =>
    intro st count
    cases h : rowOfOtlpSpan pid sn ra s with
    | ok row =>
      rw [List.map_cons, h, okRows_cons_ok, firstErr_cons_ok]
      simp only [insertSpanList, h]
      rw [ih]
      simp only [applyRows, List.foldl_cons, List.length_cons]
      have hc : count + 1 + rest.length = count + (rest.length + 1) := by omega
      rw [hc]
    | error e =>
      rw [List.map_cons, h, okRows_cons_err, firstErr_cons_err]
      simp [insertSpanList, h, applyRows]

theorem insertResourceList_eq (pid : Option Int) :
    ∀ (rss : List ResourceSpans) (st : SpansTable) (count : Nat),
    insertResourceList pid st count rss =
      (applyRows st (okRows (resourceRowResults pid rss)),
       match firstErr (resourceRowResults pid rss) with
       | some e => Except.error e
       | none => Except.ok (count + (resourceRowResults pid rss).length)) := by
  intro rss
  induction rss with
  | nil => intro st count; simp [insertResourceList, resourceRowResults, okRows,
      firstErr, applyRows]
  | cons rs rest ih =>
    intro st count
    cases hss : rs.scope_spans with
    | none =>
      simp only [insertResourceList, hss]
      rw [ih]
      simp [resourceRowResults, hss]
    | some scope_spans =>
      have hres : resourceRowResults pid (rs :: rest) =
          ((scope_spans.map (·.spans)).flatten).map
            (rowOfOtlpSpan pid
              ((parse_attributes (rs.resource.bind (·.attributes))).get "service.name")
              (parse_attributes (rs.resource.bind (·.attributes)))) ++
            resourceRowResults pid rest := by
        simp [resourceRowResults, hss]
      set ra := parse_attributes (rs.resource.bind (·.attributes)) with hra
      set g := ((scope_spans.map (·.spans)).flatten).map
        (rowOfOtlpSpan pid (ra.get "service.name") ra) with hg
      simp only [insertResourceList, hss]
      rw [insertSpanList_eq]
      cases hfe : firstErr g with
      | none =>
        simp only [← hra, ← hg, hfe]
        rw [ih, hres, okRows_append, firstErr_append]
        simp only [hfe, if_true, eq_self_iff_true, Prod.mk.injEq]
        refine ⟨by simp [applyRows, List.foldl_append], ?_⟩
        simp only [List.length_append, hg, List.length_map]
        cases firstErr (resourceRowResults pid rest) <;> simp
        omega
      | some e =>
        simp only [← hra, ← hg, hfe]
        rw [hres, okRows_append, firstErr_append]
        simp [hfe]

theorem insert_batch_characterization (st : SpansTable)
    (request : OtlpTraceRequest) (pid : Option Int) :
    (insert_otlp_batch st request pid).1 =
      applyRows st (okRows (batchRowResults pid request)) ∧
    (insert_otlp_batch st request pid).2 =
      (match firstErr (batchRowResults pid request) with
       | some e => Except.error e
       | none => Except.ok (batchRowResults pid request).length) := by
  unfold insert_otlp_batch batchRowResults
  rw [insertResourceList_eq]
  exact ⟨rfl, by split <;> simp⟩

/-- C3, amended: when a span of an OTLP batch is malformed (a timestamp
fails to parse as `i64`), `insert_otlp_batch` returns that error and stops
processing — but the spans already written (those preceding the malformed
one in batch order) remain in storage: the per-span writes are separate
autocommitted statements with no enclosing transaction, so there is no
rollback.  The call's state and result are exactly: upsert the rows of the
longest all-well-formed prefix, and return the first translation error
(or the span count when every span is well-formed). -/
theorem c3_batch_abort_keeps_written (st : SpansTable)
    (request : OtlpTraceRequest) (pid : Option Int) :
    (insert_otlp_batch st request pid).1 =
      applyRows st (okRows (batchRowResults pid request)) ∧
    (insert_otlp_batch st request pid).2 =
      (match firstErr (batchRowResults pid request) with
       | some e => Except.error e
       | none => Except.ok (batchRowResults pid request).length) :=
  insert_batch_characterization st request pid

/-- C3, counterexample.  A two-span batch whose second span has an
unparseable start timestamp makes `insert_otlp_batch` fail — but the first
span of the batch is observable in storage after the failed call, so the
state is not unchanged on error. -/
theorem c3_counterexample :
    (insert_otlp_batch [] exBadBatch (some 1)).2 =
      Except.error "invalid digit found in string" ∧
    ((insert_otlp_batch [] exBadBatch (some 1)).1.map (fun r => r.span_id)) =
      ["s-1"] :=
  ⟨rfl, rfl⟩

-- ===========================================================================
-- C9: root_span_type invariant
-- ===========================================================================

theorem from_str_as_str (c : SpanCategory) :
    SpanCategory.from_str c.as_str = c := by
  cases c <;> rfl

theorem rowOfOtlpSpan_rootTypeOk (pid : Option Int) (sn : Option String)
    (ra : AttrMap) (s : OtlpSpan) (row : SpanRow)
    (h : rowOfOtlpSpan pid sn ra s = Except.ok row) : rootTypeOk row := by
  cases hs : parseI64 s.start_time_unix_nano with
  | none => simp [rowOfOtlpSpan, hs, bind, Except.bind] at h
  | some start_nano =>
    cases he : parseI64 s.end_time_unix_nano with
    | none => simp [rowOfOtlpSpan, hs, he, bind, Except.bind] at h
    | some end_nano =>
      simp only [rowOfOtlpSpan, hs, he, bind, Except.bind, pure, Except.pure] at h
      injection h with h
      subst h
      unfold rootTypeOk
      simp only [from_str_as_str]
      cases hp : s.parent_span_id with
      | none => simp
      | some p =>
        cases hpe : strIsEmpty p with
        | true => simp [hp, hpe, Option.filter]
        | false => simp [hp, hpe, Option.filter]

theorem mem_okRows {row : SpanRow} {results : List (Except String SpanRow)}
    (h : row ∈ okRows results) : Except.ok row ∈ results := by
  unfold okRows at h
  rcases List.mem_filterMap.mp h with ⟨r, hr, hro⟩
  have hrr : r ∈ results := (List.takeWhile_sublist _).mem hr
  cases r with
  | ok a =>
    simp only [Except.toOption] at hro
    injection hro with hro
    subst hro; exact hrr
  | error e => simp [Except.toOption] at hro

theorem mem_batchRowResults {r : Except String SpanRow} {pid : Option Int}
    {request : OtlpTraceRequest} (h : r ∈ batchRowResults pid request) :
    ∃ sn ra s, r = rowOfOtlpSpan pid sn ra s := by
  unfold batchRowResults resourceRowResults at h
  rcases List.mem_flatten.mp h with ⟨group, hg, hrg⟩
  rcases List.mem_map.mp hg with ⟨rs, _, hrs⟩
  subst hrs
  cases hss : rs.scope_spans with
  | none => simp [hss] at hrg
  | some scope_spans =>
    simp only [hss] at hrg
    rcases List.mem_map.mp hrg with ⟨s, _, hs⟩
    exact ⟨_, _, s, hs.symm⟩

theorem applyRows_rootTypeOk {st : SpansTable} {rows : List SpanRow}
    (hst : ∀ r ∈ st, rootTypeOk r) (hrows : ∀ r ∈ rows, rootTypeOk r) :
    ∀ r ∈ applyRows st rows, rootTypeOk r := by
  induction rows generalizing st with
  | nil => simpa [applyRows] using hst
  | cons row rest ih =>
    have hrow : rootTypeOk row := hrows row (by simp)
    have hup : ∀ r ∈ upsertSpan st row, rootTypeOk r := by
      intro r hr
      unfold upsertSpan at hr
      rcases List.mem_append.mp hr with hr | hr
      · exact hst r (List.mem_of_mem_filter hr)
      · simp only [List.mem_singleton] at hr
        subst hr; exact hrow
    intro r hr
    exact ih hup (fun x hx => hrows x (by simp [hx])) r hr

/-- C9.  Every row stored by OTLP ingestion satisfies: `root_span_type` is
the root-type of its computed category exactly when its stored
`parent_span_id` is null (i.e., the incoming parent was absent or empty),
and null otherwise; hence it is non-null iff the span is a root and its
category maps to web/job/command.  The property is an invariant of the
`INSERT OR REPLACE` upsert, so re-ingestion preserves it. -/
theorem c9_root_type_invariant (st : SpansTable) (request : OtlpTraceRequest)
    (pid : Option Int) (h : ∀ r ∈ st, rootTypeOk r) :
    ∀ r ∈ (insert_otlp_batch st request pid).1,
      rootTypeOk r ∧
      (r.root_span_type ≠ none ↔
        (r.parent_span_id = none ∧
          RootSpanType.from_category (SpanCategory.from_str r.span_category) ≠ none)) := by
  have hstate := (insert_batch_characterization st request pid).1
  intro r hr
  rw [hstate] at hr
  have hok : rootTypeOk r := by
    refine applyRows_rootTypeOk h ?_ r hr
    intro row hrow
    rcases mem_batchRowResults (mem_okRows hrow) with ⟨sn, ra, s, hs⟩
    exact rowOfOtlpSpan_rootTypeOk pid sn ra s row hs.symm
  refine ⟨hok, ?_⟩
  unfold rootTypeOk at hok
  by_cases hp : r.parent_span_id = none
  · rw [hok]
    simp only [hp, if_true, ne_eq, eq_self_iff_true, true_and]
    cases RootSpanType.from_category (SpanCategory.from_str r.span_category) <;> simp
  · rw [hok]
    simp [hp]

/-- C9, witness: ingesting a concrete root http-server span into an empty
store yields a row satisfying the invariant (its root type is `web`). -/
theorem c9_root_type_witness :
    List.Forall (fun (r : SpanRow) => rootTypeOk r ∧
      (r.root_span_type ≠ none ↔
        (r.parent_span_id = none ∧
          RootSpanType.from_category (SpanCategory.from_str r.span_category) ≠ none)))
      (insert_otlp_batch []
        ⟨[⟨none, some [⟨none, [exOtlpSpan "s-1" "1000"]⟩]⟩]⟩ (some 1)).1 :=
  List.forall_iff_forall_mem.mpr
    (c9_root_type_invariant [] ⟨[⟨none, some [⟨none, [exOtlpSpan "s-1" "1000"]⟩]⟩]⟩
      (some 1) (by simp))

-- ===========================================================================
-- C10: N+1 detection
-- ===========================================================================

theorem pfind_cons (e : String × Nat × ℚ × List String)
    (acc : List (String × Nat × ℚ × List String)) (q : String) :
    pfind (e :: acc) q = if e.1 == q then some e else pfind acc q := by
  by_cases h : (e.1 == q) = true
  · simp [pfind, List.find?_cons, h]
  · simp only [Bool.not_eq_true] at h
    simp [pfind, List.find?_cons, h]

theorem upsertPattern_cons (k : String) (c : Nat) (t : ℚ) (ids : List String)
    (tl : List (String × Nat × ℚ × List String)) (p : String) (d : ℚ)
    (sid : String) :
    upsertPattern ((k, c, t, ids) :: tl) p d sid =
      if k == p then (k, c + 1, t + d, ids ++ [sid]) :: tl
      else (k, c, t, ids) :: upsertPattern tl p d sid := rfl

theorem pfind_upsert (acc : List (String × Nat × ℚ × List String)) (p : String)
    (d : ℚ) (sid : String) (q : String) :
    pfind (upsertPattern acc p d sid) q =
      if q = p then
        match pfind acc p with
        | some e => some (p, e.2.1 + 1, e.2.2.1 + d, e.2.2.2 ++ [sid])
        | none => some (p, 1, d, [sid])
      else pfind acc q := by
  induction acc with
  | nil =>
    by_cases hq : q = p
    · subst hq; simp [upsertPattern, pfind_cons, pfind]
    · simp [upsertPattern, pfind_cons, pfind, hq, Ne.symm hq]
  | cons hd tl ih =>
    obtain ⟨k, c, t, ids⟩ := hd
    rw [upsertPattern_cons]
    by_cases hk : k = p
    · subst hk
      have hb : (k == k) = true := by simp
      rw [if_pos hb]
      by_cases hq : q = k
      · subst hq
        rw [pfind_cons, if_pos hb, if_pos rfl, pfind_cons, if_pos hb]
      · have hkq : k ≠ q := fun h => hq h.symm
        have hbq : ¬((k == q) = true) := by simp [hkq]
        rw [pfind_cons, if_neg hbq, if_neg hq, pfind_cons, if_neg hbq]
    · have hb : ¬((k == p) = true) := by simp [hk]
      rw [if_neg hb]
      by_cases hq : q = k
      · subst hq
        have hbk : (q == q) = true := by simp
        rw [pfind_cons, if_pos hbk, if_neg hk, pfind_cons, if_pos hbk]
      · have hkq : k ≠ q := fun h => hq h.symm
        have hbq : ¬((k == q) = true) := by simp [hkq]
        rw [pfind_cons, if_neg hbq, ih]
        by_cases hqp : q = p
        · subst hqp
          rw [if_pos rfl, if_pos rfl, pfind_cons, if_neg hb]
        · rw [if_neg hqp, if_neg hqp, pfind_cons, if_neg hbq]

theorem upsert_keys (acc : List (String × Nat × ℚ × List String)) (p : String)
    (d : ℚ) (sid : String) :
    (upsertPattern acc p d sid).map (·.1) =
      if (pfind acc p).isSome then acc.map (·.1) else acc.map (·.1) ++ [p] := by
  induction acc with
  | nil => simp [upsertPattern, pfind]
  | cons hd tl ih =>
    obtain ⟨k, c, t, ids⟩ := hd
    rw [upsertPattern_cons]
    by_cases hk : k = p
    · subst hk
      have hb : (k == k) = true := by simp
      rw [if_pos hb, pfind_cons, if_pos hb]
      simp
    · have hb : ¬((k == p) = true) := by simp [hk]
      rw [if_neg hb, pfind_cons, if_neg hb]
      simp only [List.map_cons, ih]
      by_cases hs : (pfind tl p).isSome = true
      · rw [if_pos hs, if_pos hs]
      · rw [if_neg hs, if_neg hs]
        simp

theorem pfind_eq_none_iff (acc : List (String × Nat × ℚ × List String))
    (p : String) : pfind acc p = none ↔ p ∉ acc.map (·.1) := by
  unfold pfind
  rw [List.find?_eq_none]
  constructor
  · intro h hp
    rcases List.mem_map.mp hp with ⟨e, he, hep⟩
    exact h e he (beq_iff_eq.mpr hep)
  · intro h e he hbeq
    exact h (List.mem_map.mpr ⟨e, he, beq_iff_eq.mp hbeq⟩)

/-- One fold step of the grouping loop. -/
theorem groupDbPatterns_append (spans : List SpanDisplay) (s : SpanDisplay) :
    groupDbPatterns (spans ++ [s]) =
      (if s.category = SpanCategory.db then
        match s.db_statement with
        | some statement =>
          upsertPattern (groupDbPatterns spans) (normalize_sql statement)
            s.duration_ms s.span_id
        | none => groupDbPatterns spans
      else groupDbPatterns spans) := by
  unfold groupDbPatterns
  rw [List.foldl_append]
  rfl

theorem group_keys_nodup (spans : List SpanDisplay) :
    ((groupDbPatterns spans).map (·.1)).Nodup := by
  induction spans using List.reverseRecOn with
  | nil => simp [groupDbPatterns]
  | append_singleton spans s ih =>
    rw [groupDbPatterns_append]
    split
    · rename_i hdb
      cases hstmt : s.db_statement with
      | none => exact ih
      | some statement =>
        rw [upsert_keys]
        split
        · exact ih
        · rename_i hnone
          have hnotmem : normalize_sql statement ∉
              (groupDbPatterns spans).map (·.1) :=
            (pfind_eq_none_iff _ _).mp (Option.not_isSome_iff_eq_none.mp hnone)
          refine ih.append (List.nodup_singleton _) ?_
          intro a ha hap
          rw [List.mem_singleton] at hap
          subst hap
          exact hnotmem ha
    · exact ih

theorem patternSpans_append (spans : List SpanDisplay) (s : SpanDisplay)
    (p : String) :
    patternSpans (spans ++ [s]) p =
      patternSpans spans p ++
        (if s.category == SpanCategory.db &&
            (s.db_statement.map normalize_sql) == some p then [s] else []) := by
  unfold patternSpans
  rw [List.filter_append]
  by_cases h : (s.category == SpanCategory.db &&
      (s.db_statement.map normalize_sql) == some p) = true
  · simp [List.filter_cons, h]
  · simp only [Bool.not_eq_true] at h
    simp [List.filter_cons, h]

/-- The grouping loop computes, for every pattern, the count, the summed
duration and the span-id list of the db spans with that pattern. -/
theorem groupDbPatterns_spec (spans : List SpanDisplay) (p : String) :
    pfind (groupDbPatterns spans) p =
      if 0 < patternCount spans p then
        some (p, patternCount spans p, patternDuration spans p, patternIds spans p)
      else none := by
  induction spans using List.reverseRecOn with
  | nil => simp [groupDbPatterns, pfind, patternCount, patternSpans,
      patternDuration, patternIds]
  | append_singleton spans s ih =>
    rw [groupDbPatterns_append]
    have hps := patternSpans_append spans s p
    by_cases hdb : s.category = SpanCategory.db
    · cases hstmt : s.db_statement with
      | none =>
        simp only [if_pos hdb, hstmt]
        have : patternSpans (spans ++ [s]) p = patternSpans spans p := by
          rw [hps, hstmt]
          simp
        simp [patternCount, patternDuration, patternIds, this, ih]
      | some statement =>
        simp only [if_pos hdb, hstmt]
        by_cases hp : normalize_sql statement = p
        · subst hp
          have hmatch : (s.category == SpanCategory.db &&
              (s.db_statement.map normalize_sql) == some (normalize_sql statement)) =
              true := by
            simp [hdb, hstmt]
          have hext : patternSpans (spans ++ [s]) (normalize_sql statement) =
              patternSpans spans (normalize_sql statement) ++ [s] := by
            rw [hps, hmatch]; simp
          rw [pfind_upsert, if_pos rfl, ih]
          by_cases hc : 0 < patternCount spans (normalize_sql statement)
          · simp only [if_pos hc]
            simp [patternCount, patternDuration, patternIds, hext,
              Nat.lt_succ_iff]
          · simp only [if_neg hc]
            have hc0 : patternCount spans (normalize_sql statement) = 0 := by
              omega
            have hempty : patternSpans spans (normalize_sql statement) = [] :=
              List.length_eq_zero.mp hc0
            simp [patternCount, patternDuration, patternIds, hext, hempty]
        · have hnomatch : (s.category == SpanCategory.db &&
              (s.db_statement.map normalize_sql) == some p) = false := by
            simp [hstmt, hp]
          have hext : patternSpans (spans ++ [s]) p = patternSpans spans p := by
            rw [hps, hnomatch]; simp
          rw [pfind_upsert, if_neg (fun h => hp h.symm), ih]
          simp [patternCount, patternDuration, patternIds, hext]
    · have hnomatch : (s.category == SpanCategory.db &&
          (s.db_statement.map normalize_sql) == some p) = false := by
        simp [hdb]
      have hext : patternSpans (spans ++ [s]) p = patternSpans spans p := by
        rw [hps, hnomatch]; simp
      simp only [if_neg hdb]
      simp [patternCount, patternDuration, patternIds, hext, ih]

theorem pfind_of_mem {acc : List (String × Nat × ℚ × List String)}
    (hnd : (acc.map (·.1)).Nodup) {e : String × Nat × ℚ × List String}
    (he : e ∈ acc) : pfind acc e.1 = some e := by
  induction acc with
  | nil => simp at he
  | cons hd tl ih =>
    rcases List.mem_cons.mp he with he | he
    · subst he; simp [pfind, List.find?_cons]
    · have hne : (hd.1 == e.1) = false := by
        simp only [List.map_cons, List.nodup_cons] at hnd
        have : e.1 ∈ tl.map (·.1) := List.mem_map.mpr ⟨e, he, rfl⟩
        simp only [beq_eq_false_iff_ne, ne_eq]
        intro hcontra
        exact hnd.1 (hcontra ▸ this)

      simp only [pfind, List.find?_cons, hne]
      exact ih (List.nodup_cons.mp (by simpa using hnd)).2 he

theorem scanSql_eq_fuel :
    ∀ (fuel : Nat) (l : List Char) (inString : Bool) (stringChar : Char)
      (accRev : List Char), l.length ≤ fuel →
      scanSqlFuel fuel l inString stringChar accRev =
        scanSql l inString stringChar accRev := by
  intro fuel
  induction fuel with
  | zero =>
    intro l inString stringChar accRev hl
    have : l = [] := List.length_eq_zero.mp (Nat.le_zero.mp hl)
    subst this
    simp [scanSqlFuel, scanSql]
  | succ f ih =>
    intro l inString stringChar accRev hl
    cases l with
    | nil => simp [scanSqlFuel, scanSql]
    | cons c rest =>
      simp only [List.length_cons, Nat.succ_le_succ_iff] at hl
      rw [scanSql]
      show (if inString then _ else _) = _
      by_cases hin : inString
      · simp only [hin, if_true]
        by_cases hc : (c == stringChar) = true
        · simp only [hc, if_true]
          by_cases hh : (rest.head? == some stringChar) = true
          · simp only [hh, if_true]
            have htl : rest.tail.length ≤ rest.length := by
              rw [List.length_tail]; omega
            exact ih rest.tail _ _ _ (le_trans htl hl)
          · simp only [Bool.not_eq_true] at hh
            simp only [hh, Bool.false_eq_true, if_false]
            exact ih rest _ _ _ hl
        · simp only [Bool.not_eq_true] at hc
          simp only [hc, Bool.false_eq_true, if_false]
          exact ih rest _ _ _ hl
      · simp only [hin, if_false]
        by_cases hq : (c == '\'' || c == '"') = true
        · simp only [hq, if_true]
          exact ih rest _ _ _ hl
        · simp only [Bool.not_eq_true] at hq
          simp only [hq, Bool.false_eq_true, if_false]
          by_cases hd : (c.isDigit && numTrigger accRev) = true
          · simp only [hd, if_true]
            exact ih (dropNum rest) _ _ _
              (le_trans ((List.dropWhile_suffix _).length_le) hl)
          · simp only [Bool.not_eq_true] at hd
            simp only [hd, Bool.false_eq_true, if_false]
            exact ih rest _ _ _ hl

/-- Evaluation form of `normalize_sql` (kernel-reducible). -/
theorem normalize_sql_exec (s : String) :
    normalize_sql s =
      ⟨joinWords (wordsAux
        (scanSqlFuel s.toList.length s.toList false ' ' []).reverse [])⟩ := by
  rw [normalize_sql, scanSql_eq_fuel s.toList.length s.toList false ' ' []
    (le_refl _)]

-- Properties of the scan, the whitespace collapse and their composition
-- (used by the idempotence analysis of normalize_sql).

theorem scanFuel_goodRev :
    ∀ (fuel : Nat) (l : List Char) (b : Bool) (sc : Char) (acc : List Char),
      goodRev acc → goodRev (scanSqlFuel fuel l b sc acc) := by
  intro fuel
  induction fuel with
  | zero => intro l b sc acc hacc; exact hacc
  | succ f ih =>
    intro l b sc acc hacc
    cases l with
    | nil => exact hacc
    | cons c rest =>
      simp only [scanSqlFuel]
      by_cases hin : b = true
      · simp only [hin, if_true]
        by_cases hc : (c == sc) = true
        · simp only [hc, if_true]
          by_cases hh : (rest.head? == some sc) = true
          · simp only [hh, if_true]
            exact ih _ _ _ _ hacc
          · simp only [Bool.not_eq_true] at hh
            simp only [hh, Bool.false_eq_true, if_false]
            refine ih _ _ _ _ ?_
            exact ⟨fun hd => absurd hd (by decide), hacc⟩
        · simp only [Bool.not_eq_true] at hc
          simp only [hc, Bool.false_eq_true, if_false]
          exact ih _ _ _ _ hacc
      · simp only [Bool.not_eq_true] at hin
        simp only [hin, Bool.false_eq_true, if_false]
        by_cases hq : (c == '\'' || c == '"') = true
        · simp only [hq, if_true]
          exact ih _ _ _ _ hacc
        · simp only [Bool.not_eq_true] at hq
          simp only [hq, Bool.false_eq_true, if_false]
          by_cases hd : (c.isDigit && numTrigger acc) = true
          · simp only [hd, if_true]
            refine ih _ _ _ _ ?_
            exact ⟨fun hd' => absurd hd' (by decide), hacc⟩
          · simp only [Bool.not_eq_true] at hd
            simp only [hd, Bool.false_eq_true, if_false]
            refine ih _ _ _ _ ?_
            refine ⟨fun hcd => ?_, hacc⟩
            cases hnt : numTrigger acc with
            | false => rfl
            | true => rw [hcd, hnt] at hd; simp at hd

theorem scanFuel_noQuote :
    ∀ (fuel : Nat) (l : List Char) (b : Bool) (sc : Char) (acc : List Char),
      noQuote acc → noQuote (scanSqlFuel fuel l b sc acc) := by
  intro fuel
  induction fuel with
  | zero => intro l b sc acc hacc; exact hacc
  | succ f ih =>
    intro l b sc acc hacc
    cases l with
    | nil => exact hacc
    | cons c rest =>
      simp only [scanSqlFuel]
      by_cases hin : b = true
      · simp only [hin, if_true]
        by_cases hc : (c == sc) = true
        · simp only [hc, if_true]
          by_cases hh : (rest.head? == some sc) = true
          · simp only [hh, if_true]
            exact ih _ _ _ _ hacc
          · simp only [Bool.not_eq_true] at hh
            simp only [hh, Bool.false_eq_true, if_false]
            refine ih _ _ _ _ ?_
            intro x hx
            rcases List.mem_cons.mp hx with hx | hx
            · subst hx; exact ⟨by decide, by decide⟩
            · exact hacc x hx
        · simp only [Bool.not_eq_true] at hc
          simp only [hc, Bool.false_eq_true, if_false]
          exact ih _ _ _ _ hacc
      · simp only [Bool.not_eq_true] at hin
        simp only [hin, Bool.false_eq_true, if_false]
        by_cases hq : (c == '\'' || c == '"') = true
        · simp only [hq, if_true]
          exact ih _ _ _ _ hacc
        · simp only [Bool.not_eq_true] at hq
          simp only [hq, Bool.false_eq_true, if_false]
          have hq' : c ≠ '\'' ∧ c ≠ '"' := by
            constructor
            · intro hcontra; subst hcontra; simp at hq
            · intro hcontra; subst hcontra; simp at hq
          by_cases hd : (c.isDigit && numTrigger acc) = true
          · simp only [hd, if_true]
            refine ih _ _ _ _ ?_
            intro x hx
            rcases List.mem_cons.mp hx with hx | hx
            · subst hx; exact ⟨by decide, by decide⟩
            · exact hacc x hx
          · simp only [Bool.not_eq_true] at hd
            simp only [hd, Bool.false_eq_true, if_false]
            refine ih _ _ _ _ ?_
            intro x hx
            rcases List.mem_cons.mp hx with hx | hx
            · subst hx; exact hq'
            · exact hacc x hx

theorem scanFuel_mem :
    ∀ (fuel : Nat) (l : List Char) (b : Bool) (sc : Char) (acc : List Char)
      (x : Char), x ∈ scanSqlFuel fuel l b sc acc →
      x = '?' ∨ x ∈ l ∨ x ∈ acc := by
  intro fuel
  induction fuel with
  | zero => intro l b sc acc x hx; exact Or.inr (Or.inr hx)
  | succ f ih =>
    intro l b sc acc x hx
    cases l with
    | nil => exact Or.inr (Or.inr hx)
    | cons c rest =>
      simp only [scanSqlFuel] at hx
      by_cases hin : b = true
      · rw [if_pos hin] at hx
        by_cases hc : (c == sc) = true
        · rw [if_pos hc] at hx
          by_cases hh : (rest.head? == some sc) = true
          · rw [if_pos hh] at hx
            rcases ih _ _ _ _ _ hx with h | h | h
            · exact Or.inl h
            · exact Or.inr (Or.inl (List.mem_cons_of_mem _
                ((List.tail_sublist rest).subset h)))
            · exact Or.inr (Or.inr h)
          · rw [if_neg hh] at hx
            rcases ih _ _ _ _ _ hx with h | h | h
            · exact Or.inl h
            · exact Or.inr (Or.inl (List.mem_cons_of_mem _ h))
            · rcases List.mem_cons.mp h with h | h
              · exact Or.inl h
              · exact Or.inr (Or.inr h)
        · rw [if_neg hc] at hx
          rcases ih _ _ _ _ _ hx with h | h | h
          · exact Or.inl h
          · exact Or.inr (Or.inl (List.mem_cons_of_mem _ h))
          · exact Or.inr (Or.inr h)
      · rw [if_neg hin] at hx
        by_cases hq : (c == '\'' || c == '"') = true
        · rw [if_pos hq] at hx
          rcases ih _ _ _ _ _ hx with h | h | h
          · exact Or.inl h
          · exact Or.inr (Or.inl (List.mem_cons_of_mem _ h))
          · exact Or.inr (Or.inr h)
        · rw [if_neg hq] at hx
          by_cases hd : (c.isDigit && numTrigger acc) = true
          · rw [if_pos hd] at hx
            rcases ih _ _ _ _ _ hx with h | h | h
            · exact Or.inl h
            · exact Or.inr (Or.inl (List.mem_cons_of_mem _
                ((List.dropWhile_suffix _).sublist.subset h)))
            · rcases List.mem_cons.mp h with h | h
              · exact Or.inl h
              · exact Or.inr (Or.inr h)
          · rw [if_neg hd] at hx
            rcases ih _ _ _ _ _ hx with h | h | h
            · exact Or.inl h
            · exact Or.inr (Or.inl (List.mem_cons_of_mem _ h))
            · rcases List.mem_cons.mp h with h | h
              · exact Or.inr (Or.inl (h ▸ List.mem_cons_self c rest))
              · exact Or.inr (Or.inr h)

theorem scanFuel_identity :
    ∀ (fuel : Nat) (l : List Char) (sc : Char) (acc : List Char),
      l.length ≤ fuel → noQuote l → NDAT (numTrigger acc) l →
      scanSqlFuel fuel l false sc acc = l.reverse ++ acc := by
  intro fuel
  induction fuel with
  | zero =>
    intro l sc acc hl _ _
    have : l = [] := List.length_eq_zero.mp (Nat.le_zero.mp hl)
    subst this
    rfl
  | succ f ih =>
    intro l sc acc hl hnq hndat
    cases l with
    | nil => rfl
    | cons c rest =>
      simp only [List.length_cons, Nat.succ_le_succ_iff] at hl
      obtain ⟨h1, h2⟩ := hndat
      have hcq := hnq c (List.mem_cons_self c rest)
      have hq : (c == '\'' || c == '"') = false := by
        simp [hcq.1, hcq.2]
      have hd : (c.isDigit && numTrigger acc) = false := by
        cases hcd : c.isDigit with
        | false => rfl
        | true => rw [h1 hcd]; rfl
      simp only [scanSqlFuel, Bool.false_eq_true, if_false, hq, hd]
      have hnt : numTrigger (c :: acc) = isTrig c := rfl
      rw [ih rest sc (c :: acc) hl
        (fun x hx => hnq x (List.mem_cons_of_mem _ hx)) (by rw [hnt]; exact h2)]
      simp

theorem lastFlag_cons (flag : Bool) (x : Char) (xs : List Char) :
    lastFlag flag (x :: xs) = lastFlag (isTrig x) xs := by
  cases xs with
  | nil => rfl
  | cons y ys =>
    simp only [lastFlag, List.getLast?_cons_cons]
    cases h : (y :: ys).getLast? with
    | none => exact absurd h (by simp)
    | some d => rfl

theorem ndat_append :
    ∀ (xs : List Char) (c : Char) (flag : Bool),
      NDAT flag (xs ++ [c]) ↔
        (NDAT flag xs ∧ (c.isDigit = true → lastFlag flag xs = false)) := by
  intro xs
  induction xs with
  | nil =>
    intro c flag
    constructor
    · intro h; exact ⟨trivial, h.1⟩
    · intro h; exact ⟨h.2, trivial⟩
  | cons x xs ih =>
    intro c flag
    rw [List.cons_append]
    constructor
    · intro h
      obtain ⟨ha, hb⟩ := h
      rcases (ih c (isTrig x)).mp hb with ⟨hc, hd⟩
      exact ⟨⟨ha, hc⟩, by rw [lastFlag_cons]; exact hd⟩
    · intro h
      obtain ⟨⟨ha, hc⟩, hd⟩ := h
      rw [lastFlag_cons] at hd
      exact ⟨ha, (ih c (isTrig x)).mpr ⟨hc, hd⟩⟩

theorem lastFlag_reverse (rest : List Char) :
    lastFlag true rest.reverse = numTrigger rest := by
  cases rest with
  | nil => rfl
  | cons d ds =>
    have : (d :: ds).reverse.getLast? = some d := by
      rw [List.getLast?_reverse]
      rfl
    simp only [lastFlag, this]
    rfl

theorem goodRev_reverse :
    ∀ (acc : List Char), goodRev acc → NDAT true acc.reverse := by
  intro acc
  induction acc with
  | nil => intro _; trivial
  | cons c rest ih =>
    intro h
    obtain ⟨h1, h2⟩ := h
    rw [List.reverse_cons]
    refine (ndat_append rest.reverse c true).mpr ⟨ih h2, ?_⟩
    intro hcd
    rw [lastFlag_reverse]
    exact h1 hcd

theorem ndat_dropWhile :
    ∀ (m : List Char), wsSpace m → NDAT true m →
      NDAT true (m.dropWhile isRustWhitespace) := by
  intro m
  induction m with
  | nil => intro _ _; trivial
  | cons c rest ih =>
    intro hws hndat
    obtain ⟨h1, h2⟩ := hndat
    rw [List.dropWhile_cons]
    by_cases hc : isRustWhitespace c = true
    · rw [if_pos hc]
      have hcsp : c = ' ' := hws c (List.mem_cons_self c rest) hc
      have htr : isTrig c = true := by rw [hcsp]; rfl
      rw [htr] at h2
      exact ih (fun x hx => hws x (List.mem_cons_of_mem _ hx)) h2
    · rw [if_neg hc]
      exact ⟨h1, h2⟩

theorem ca_ndat :
    ∀ (m : List Char) (p pend q : Bool), wsSpace m → NDAT p m →
      (pend = true → p = true) → (q = true → p = true) →
      NDAT q (collapseAux m pend) := by
  intro m
  induction m with
  | nil => intro p pend q _ _ _ _; trivial
  | cons c rest ih =>
    intro p pend q hws hndat hpend hq
    obtain ⟨h1, h2⟩ := hndat
    have hwsr : wsSpace rest := fun x hx => hws x (List.mem_cons_of_mem _ hx)
    simp only [collapseAux]
    by_cases hc : isRustWhitespace c = true
    · rw [if_pos hc]
      have hcsp : c = ' ' := hws c (List.mem_cons_self c rest) hc
      have htr : isTrig c = true := by rw [hcsp]; rfl
      rw [htr] at h2
      exact ih true true q hwsr h2 (fun _ => rfl) (fun _ => rfl)
    · rw [if_neg hc]
      cases pend with
      | true =>
        have hp : p = true := hpend rfl
        rw [if_pos rfl]
        refine ⟨fun hd => absurd hd (by decide), ?_, ?_⟩
        · intro hcd
          rw [hp] at h1
          exact absurd (h1 hcd) (by simp)
        · exact ih (isTrig c) false (isTrig c) hwsr h2 (by simp) (fun h => h)
      | false =>
        rw [if_neg (by simp)]
        refine ⟨fun hcd => ?_, ?_⟩
        · cases hqv : q with
          | false => rfl
          | true => rw [h1 hcd] at hq; exact absurd (hq hqv) (by simp)
        · exact ih (isTrig c) false (isTrig c) hwsr h2 (by simp) (fun h => h)

theorem collapse_mem :
    ∀ (m : List Char) (b : Bool) (x : Char), x ∈ collapseAux m b →
      x = ' ' ∨ x ∈ m := by
  intro m
  induction m with
  | nil => intro b x hx; simp [collapseAux] at hx
  | cons c rest ih =>
    intro b x hx
    simp only [collapseAux] at hx
    by_cases hc : isRustWhitespace c = true
    · rw [if_pos hc] at hx
      rcases ih true x hx with h | h
      · exact Or.inl h
      · exact Or.inr (List.mem_cons_of_mem _ h)
    · rw [if_neg hc] at hx
      cases b with
      | true =>
        rw [if_pos rfl] at hx
        rcases List.mem_cons.mp hx with h | h
        · exact Or.inl h
        · rcases List.mem_cons.mp h with h | h
          · exact Or.inr (h ▸ List.mem_cons_self c rest)
          · rcases ih false x h with h' | h'
            · exact Or.inl h'
            · exact Or.inr (List.mem_cons_of_mem _ h')
      | false =>
        rw [if_neg (by simp)] at hx
        rcases List.mem_cons.mp hx with h | h
        · exact Or.inr (h ▸ List.mem_cons_self c rest)
        · rcases ih false x h with h' | h'
          · exact Or.inl h'
          · exact Or.inr (List.mem_cons_of_mem _ h')

theorem collapse_idem :
    ∀ (m : List Char) (b : Bool),
      collapseAux (collapseAux m b) false = collapseAux m b := by
  intro m
  induction m with
  | nil => intro b; rfl
  | cons c rest ih =>
    intro b
    by_cases hc : isRustWhitespace c = true
    · rw [collapseAux, if_pos hc]
      exact ih true
    · cases b with
      | false =>
        rw [collapseAux, if_neg hc, if_neg (by simp)]
        rw [collapseAux, if_neg hc, if_neg (by simp)]
        rw [ih false]
      | true =>
        rw [collapseAux, if_neg hc, if_pos rfl]
        rw [collapseAux, if_pos (by decide)]
        rw [collapseAux, if_neg hc, if_pos rfl]
        rw [ih false]

theorem dropWhile_head_false {p : Char → Bool} :
    ∀ (l : List Char) (c : Char) (rest : List Char),
      l.dropWhile p = c :: rest → p c = false := by
  intro l
  induction l with
  | nil => intro c rest h; simp at h
  | cons x xs ih =>
    intro c rest h
    rw [List.dropWhile_cons] at h
    by_cases hx : p x = true
    · rw [if_pos hx] at h
      exact ih c rest h
    · rw [if_neg hx] at h
      have : x = c := (List.cons.inj h).1
      rw [← this]
      exact Bool.not_eq_true _ |>.mp hx

theorem jw_cons (x : List Char) (ws' : List (List Char)) :
    joinWords (x :: ws') =
      x ++ (if ws'.isEmpty then [] else ' ' :: joinWords ws') := by
  cases ws' with
  | nil => simp [joinWords]
  | cons y rest => simp [joinWords, List.intersperse_cons_cons]

theorem wa_ne_nil :
    ∀ (m : List Char) (acc : List Char), acc ≠ [] → wordsAux m acc ≠ [] := by
  intro m
  induction m with
  | nil =>
    intro acc hacc
    simp only [wordsAux]
    rw [if_neg (by simpa using hacc)]
    simp
  | cons c rest ih =>
    intro acc hacc
    simp only [wordsAux]
    by_cases hc : isRustWhitespace c = true
    · rw [if_pos hc, if_neg (by simpa using hacc)]
      simp
    · rw [if_neg hc]
      exact ih (c :: acc) (by simp)

theorem wa_nil_iff :
    ∀ (m : List Char), wordsAux m [] = [] ↔
      m.dropWhile isRustWhitespace = [] := by
  intro m
  induction m with
  | nil => constructor <;> intro _ <;> rfl
  | cons c rest ih =>
    by_cases hc : isRustWhitespace c = true
    · have h1 : wordsAux (c :: rest) [] = wordsAux rest [] := by
        simp only [wordsAux]
        rw [if_pos hc, if_pos (by rfl)]
      have h2 : (c :: rest).dropWhile isRustWhitespace =
          rest.dropWhile isRustWhitespace := by
        rw [List.dropWhile_cons, if_pos hc]
      rw [h1, h2]
      exact ih
    · have h1 : wordsAux (c :: rest) [] = wordsAux rest [c] := by
        simp only [wordsAux]
        rw [if_neg hc]
      have h2 : (c :: rest).dropWhile isRustWhitespace = c :: rest := by
        rw [List.dropWhile_cons, if_neg hc]
      rw [h1, h2]
      constructor
      · intro h; exact absurd h (wa_ne_nil rest [c] (by simp))
      · intro h; exact absurd h (by simp)

theorem cp_pend :
    ∀ (m : List Char), collapseAux m true =
      if (m.dropWhile isRustWhitespace).isEmpty then []
      else ' ' :: collapseAux (m.dropWhile isRustWhitespace) false := by
  intro m
  induction m with
  | nil => rfl
  | cons c rest ih =>
    rw [List.dropWhile_cons]
    by_cases hc : isRustWhitespace c = true
    · rw [collapseAux, if_pos hc, if_pos hc]
      exact ih
    · rw [collapseAux, if_neg hc, if_pos rfl, if_neg hc]
      rw [if_neg (by simp)]
      rw [collapseAux, if_neg hc, if_neg (by simp)]

theorem words_collapse :
    ∀ (m : List Char),
      (joinWords (wordsAux m []) =
        collapseAux (m.dropWhile isRustWhitespace) false) ∧
      (∀ acc, acc ≠ [] →
        joinWords (wordsAux m acc) = acc.reverse ++ collapseAux m false) := by
  intro m
  induction m with
  | nil =>
    constructor
    · rfl
    · intro acc hacc
      simp only [wordsAux]
      rw [if_neg (by simpa using hacc)]
      simp [joinWords, collapseAux]
  | cons c rest ih =>
    obtain ⟨ih1, ih2⟩ := ih
    by_cases hc : isRustWhitespace c = true
    · constructor
      · simp only [wordsAux, List.dropWhile_cons]
        rw [if_pos hc, if_pos (by rfl), if_pos hc]
        exact ih1
      · intro acc hacc
        simp only [wordsAux]
        rw [if_pos hc, if_neg (by simpa using hacc)]
        rw [jw_cons]
        rw [collapseAux, if_pos hc, cp_pend rest]
        by_cases hemp : (rest.dropWhile isRustWhitespace).isEmpty = true
        · rw [if_pos hemp]
          have : wordsAux rest [] = [] :=
            (wa_nil_iff rest).mpr (by simpa using hemp)
          rw [this]
          simp
        · rw [if_neg hemp]
          have hwa : wordsAux rest [] ≠ [] := by
            intro hcontra
            exact hemp (by simp [(wa_nil_iff rest).mp hcontra])
          rw [if_neg (by simpa using hwa)]
          rw [ih1]
    · constructor
      · simp only [wordsAux, List.dropWhile_cons]
        rw [if_neg hc, if_neg hc]
        rw [ih2 [c] (by simp)]
        rw [collapseAux, if_neg hc, if_neg (by simp)]
        rfl
      · intro acc hacc
        simp only [wordsAux]
        rw [if_neg hc]
        rw [ih2 (c :: acc) (by simp)]
        rw [collapseAux, if_neg hc, if_neg (by simp)]
        simp

theorem norm_fix (m : List Char) (hnq : noQuote m) (hnd : NDAT true m)
    (hws : wsSpace m) :
    normalize_sql ⟨joinWords (wordsAux m [])⟩ = ⟨joinWords (wordsAux m [])⟩ := by
  have hw : joinWords (wordsAux m []) =
      collapseAux (m.dropWhile isRustWhitespace) false := (words_collapse m).1
  rw [hw]
  have hwsx : wsSpace (m.dropWhile isRustWhitespace) :=
    fun c hc h => hws c ((List.dropWhile_suffix _).sublist.subset hc) h
  have hndx : NDAT true (m.dropWhile isRustWhitespace) := ndat_dropWhile m hws hnd
  have hndw : NDAT true (collapseAux (m.dropWhile isRustWhitespace) false) :=
    ca_ndat _ true false true hwsx hndx (by simp) (fun h => h)
  have hnqw : noQuote (collapseAux (m.dropWhile isRustWhitespace) false) := by
    intro c hc
    rcases collapse_mem _ false c hc with h | h
    · rw [h]; exact ⟨by decide, by decide⟩
    · exact hnq c ((List.dropWhile_suffix _).sublist.subset h)
  have hscan2 : scanSql (collapseAux (m.dropWhile isRustWhitespace) false)
      false ' ' [] =
      (collapseAux (m.dropWhile isRustWhitespace) false).reverse := by
    rw [← scanSql_eq_fuel (collapseAux (m.dropWhile isRustWhitespace) false).length
      _ false ' ' [] (le_refl _)]
    rw [scanFuel_identity _ _ ' ' [] (le_refl _) hnqw hndw]
    simp
  have hwdw : (collapseAux (m.dropWhile isRustWhitespace) false).dropWhile
      isRustWhitespace = collapseAux (m.dropWhile isRustWhitespace) false := by
    cases hxv : m.dropWhile isRustWhitespace with
    | nil => rfl
    | cons c r =>
      have hcf : isRustWhitespace c = false := dropWhile_head_false m c r hxv
      rw [collapseAux, if_neg (by simp [hcf]), if_neg (by simp)]
      rw [List.dropWhile_cons, if_neg (by simp [hcf])]
  rw [normalize_sql]
  have ht : String.toList ⟨collapseAux (m.dropWhile isRustWhitespace) false⟩ =
      collapseAux (m.dropWhile isRustWhitespace) false := rfl
  rw [ht, hscan2, List.reverse_reverse, (words_collapse _).1, hwdw, collapse_idem]

/-- C7, amended.  `normalize_sql` is idempotent on every input whose
whitespace characters are all plain spaces: the normalized form of such a
string is a fixed point of the normalizer.  (The unrestricted claim is
false: collapsing an exotic whitespace character to a space can move a
digit into a literal-trigger position only on the second pass —
counterexample below.) -/
theorem c7_idempotent_amended :
    ∀ s : String, wsSpace s.toList →
      normalize_sql (normalize_sql s) = normalize_sql s := by
  intro s hws
  have hgr : goodRev (scanSql s.toList false ' ' []) := by
    rw [← scanSql_eq_fuel s.toList.length s.toList false ' ' [] (le_refl _)]
    exact scanFuel_goodRev _ _ _ _ _ trivial
  have hnq : noQuote (scanSql s.toList false ' ' []) := by
    rw [← scanSql_eq_fuel s.toList.length s.toList false ' ' [] (le_refl _)]
    exact scanFuel_noQuote _ _ _ _ _ (by intro x hx; simp at hx)
  have hwsa : wsSpace (scanSql s.toList false ' ' []) := by
    rw [← scanSql_eq_fuel s.toList.length s.toList false ' ' [] (le_refl _)]
    intro x hx hxws
    rcases scanFuel_mem _ _ _ _ _ _ hx with h | h | h
    · rw [h] at hxws; exact absurd hxws (by decide)
    · exact hws x h hxws
    · simp at h
  have h1 : normalize_sql s =
      ⟨joinWords (wordsAux (scanSql s.toList false ' ' []).reverse [])⟩ := by
    rw [normalize_sql]
  rw [h1]
  exact norm_fix (scanSql s.toList false ' ' []).reverse
    (fun c hc => hnq c (List.mem_reverse.mp hc))
    (goodRev_reverse _ hgr)
    (fun c hc h => hwsa c (List.mem_reverse.mp hc) h)

/-- C7, counterexample to the claim as written: on the input `"a\t1"` the
first normalization pass keeps the digit (it follows a tab, not a trigger
character) while collapsing the tab to a space, and the second pass then
replaces the digit — `normalize_sql` maps `"a\t1"` to `"a 1"` and `"a 1"`
to `"a ?"`, so it is not idempotent. -/
theorem c7_counterexample :
    normalize_sql (normalize_sql "a\t1") ≠ normalize_sql "a\t1" := by
  have h1 : normalize_sql "a\t1" = "a 1" := by
    rw [normalize_sql_exec]
    decide
  have h2 : normalize_sql "a 1" = "a ?" := by
    rw [normalize_sql_exec]
    decide
  rw [h1, h2]
  decide

/-- C7, witness: the amended idempotence applied at a concrete space-only
SQL string. -/
theorem c7_idempotent_witness :
    wsSpace (String.toList "SELECT * FROM users WHERE id = 12") ∧
      normalize_sql (normalize_sql "SELECT * FROM users WHERE id = 12") =
        normalize_sql "SELECT * FROM users WHERE id = 12" :=
  ⟨by unfold wsSpace; decide,
   c7_idempotent_amended "SELECT * FROM users WHERE id = 12"
     (by unfold wsSpace; decide)⟩

-- Insertion sort facts for `sort_by(|a, b| b.count.cmp(&a.count))`.

theorem insertByCountDesc_perm (i : NPlus1Issue) (l : List NPlus1Issue) :
    List.Perm (insertByCountDesc i l) (i :: l) := by
  induction l with
  | nil => simp [insertByCountDesc]
  | cons j rest ih =>
    unfold insertByCountDesc
    by_cases h : i.count ≤ j.count
    · rw [if_pos h]
      exact (ih.cons j).trans (List.Perm.swap i j rest)
    · rw [if_neg h]

theorem insertByCountDesc_sorted (i : NPlus1Issue) (l : List NPlus1Issue)
    (h : l.Pairwise (fun a b => b.count ≤ a.count)) :
    (insertByCountDesc i l).Pairwise (fun a b => b.count ≤ a.count) := by
  induction l with
  | nil => simp [insertByCountDesc]
  | cons j rest ih =>
    rcases List.pairwise_cons.mp h with ⟨hj, hrest⟩
    unfold insertByCountDesc
    by_cases hc : i.count ≤ j.count
    · rw [if_pos hc]
      refine List.pairwise_cons.mpr ⟨?_, ih hrest⟩
      intro b hb
      rcases List.mem_cons.mp ((insertByCountDesc_perm i rest).mem_iff.mp hb)
        with hb | hb
      · subst hb; exact hc
      · exact hj b hb
    · rw [if_neg hc]
      have hij : j.count ≤ i.count := le_of_not_le hc
      refine List.pairwise_cons.mpr ⟨?_, h⟩
      intro b hb
      rcases List.mem_cons.mp hb with hb | hb
      · subst hb; exact hij
      · exact le_trans (hj b hb) hij

theorem sortByCountDesc_perm (l : List NPlus1Issue) :
    List.Perm (sortByCountDesc l) l := by
  suffices h : ∀ acc : List NPlus1Issue,
      List.Perm (l.foldl (fun a i => insertByCountDesc i a) acc) (acc ++ l) by
    simpa using h []
  induction l with
  | nil => intro acc; simp [List.Perm.refl]
  | cons i rest ih =>
    intro acc
    refine ((ih _).trans
      (((insertByCountDesc_perm i acc).append_right rest).trans ?_))
    exact List.perm_middle.symm

theorem sortByCountDesc_sorted (l : List NPlus1Issue) :
    (sortByCountDesc l).Pairwise (fun a b => b.count ≤ a.count) := by
  suffices h : ∀ acc : List NPlus1Issue,
      acc.Pairwise (fun a b => b.count ≤ a.count) →
      (l.foldl (fun a i => insertByCountDesc i a) acc).Pairwise
        (fun a b => b.count ≤ a.count) by
    exact h [] (by simp)
  induction l with
  | nil => intro acc hacc; simpa using hacc
  | cons i rest ih =>
    intro acc hacc
    exact ih _ (insertByCountDesc_sorted i acc hacc)

theorem mem_group_payload {spans : List SpanDisplay}
    {e : String × Nat × ℚ × List String} (he : e ∈ groupDbPatterns spans) :
    e = (e.1, patternCount spans e.1, patternDuration spans e.1,
        patternIds spans e.1) ∧ 0 < patternCount spans e.1 := by
  have h1 := pfind_of_mem (group_keys_nodup spans) he
  have h2 := groupDbPatterns_spec spans e.1
  rw [h1] at h2
  by_cases hc : 0 < patternCount spans e.1
  · rw [if_pos hc] at h2
    exact ⟨Option.some.inj h2, hc⟩
  · rw [if_neg hc] at h2
    exact absurd h2 (by simp)

/-- C10.  For every loaded trace, `detect_n_plus_1` emits an issue for a
normalized SQL pattern iff the trace holds at least `N_PLUS_1_THRESHOLD`
(= 5) db spans with that pattern; every issue carries that pattern's
count, summed duration and span-id list; and the returned issues are
sorted by count descending. -/
theorem c10_n_plus_1_threshold (spans : List SpanDisplay) :
    (∀ p : String,
      (∃ i ∈ detect_n_plus_1 spans, i.pattern = p) ↔
        N_PLUS_1_THRESHOLD ≤ patternCount spans p) ∧
    (∀ i ∈ detect_n_plus_1 spans,
      i.count = patternCount spans i.pattern ∧
      i.total_duration_ms = patternDuration spans i.pattern ∧
      i.span_ids = patternIds spans i.pattern) ∧
    (detect_n_plus_1 spans).Pairwise (fun a b => b.count ≤ a.count) := by
  have hperm : List.Perm (detect_n_plus_1 spans) (((groupDbPatterns spans).filter
        (fun e => N_PLUS_1_THRESHOLD ≤ e.2.1)).map
      (fun e => { pattern := e.1, count := e.2.1, total_duration_ms := e.2.2.1,
                  span_ids := e.2.2.2 : NPlus1Issue })) :=
    sortByCountDesc_perm _
  have hmem : ∀ i : NPlus1Issue, i ∈ detect_n_plus_1 spans ↔
      ∃ e ∈ (groupDbPatterns spans).filter
          (fun e => N_PLUS_1_THRESHOLD ≤ e.2.1),
        i = { pattern := e.1, count := e.2.1, total_duration_ms := e.2.2.1,
              span_ids := e.2.2.2 } := by
    intro i
    rw [hperm.mem_iff, List.mem_map]
    constructor
    · rintro ⟨e, he, hi⟩; exact ⟨e, he, hi.symm⟩
    · rintro ⟨e, he, hi⟩; exact ⟨e, he, hi.symm⟩
  refine ⟨?_, ?_, sortByCountDesc_sorted _⟩
  · intro p
    constructor
    · rintro ⟨i, hi, hip⟩
      rcases (hmem i).mp hi with ⟨e, he, hie⟩
      rcases List.mem_filter.mp he with ⟨heg, hcnt⟩
      rcases mem_group_payload heg with ⟨hpayload, _⟩
      have hcnt' : N_PLUS_1_THRESHOLD ≤ e.2.1 := by
        simpa using hcnt
      have hep : e.1 = p := by rw [hie] at hip; exact hip
      have he21 : e.2.1 = patternCount spans e.1 := by
        conv_lhs => rw [hpayload]
      rw [← hep, ← he21]
      exact hcnt'
    · intro h5
      have hc : 0 < patternCount spans p := by
        have : (0 : Nat) < N_PLUS_1_THRESHOLD := by decide
        omega
      have hspec := groupDbPatterns_spec spans p
      rw [if_pos hc] at hspec
      have hmem' : (p, patternCount spans p, patternDuration spans p,
          patternIds spans p) ∈ groupDbPatterns spans :=
        List.mem_of_find?_eq_some hspec
      refine ⟨{ pattern := p, count := patternCount spans p,
                total_duration_ms := patternDuration spans p,
                span_ids := patternIds spans p }, ?_, rfl⟩
      rw [hmem _]
      exact ⟨_, List.mem_filter.mpr ⟨hmem', by simpa using h5⟩, rfl⟩
  · intro i hi
    rcases (hmem i).mp hi with ⟨e, he, hie⟩
    rcases List.mem_filter.mp he with ⟨heg, _⟩
    rcases mem_group_payload heg with ⟨hpayload, _⟩
    subst hie
    refine ⟨?_, ?_, ?_⟩
    · conv_lhs => rw [hpayload]
    · conv_lhs => rw [hpayload]
    · conv_lhs => rw [hpayload]

-- ===========================================================================
-- C6: occurrence_count invariant
-- ===========================================================================

theorem occCountInv_iff (st : ErrorsState) :
    occCountInv st = true ↔
      ∀ g ∈ st.groups, g.occurrence_count =
        (st.occs.filter (fun o => o.error_id == g.id)).length := by
  simp [occCountInv, List.all_eq_true]

theorem bumpGroup_mem {groups : List ErrorGroupRow} {g' : ErrorGroupRow}
    (id : Int) (ts : String) (h : g' ∈ bumpGroup groups id ts) :
    ∃ g ∈ groups, g' = (if g.id == id then
      { g with last_seen_at := ts, occurrence_count := g.occurrence_count + 1 }
      else g) := by
  rcases List.mem_map.mp h with ⟨g, hg, hgg⟩
  exact ⟨g, hg, hgg.symm⟩

theorem bumped_inv {st : ErrorsState} {id : Int} {ts : String}
    {occ : OccurrenceRow} (hocc : occ.error_id = id)
    (hinv : occCountInv st = true) :
    ∀ g' ∈ bumpGroup st.groups id ts,
      g'.occurrence_count =
        ((st.occs ++ [occ]).filter (fun o => o.error_id == g'.id)).length := by
  intro g' hg'
  rcases bumpGroup_mem id ts hg' with ⟨g, hg, hgg⟩
  have hcount := (occCountInv_iff st).mp hinv g hg
  rw [List.filter_append]
  by_cases hid : (g.id == id) = true
  · have hid' : g.id = id := beq_iff_eq.mp hid
    rw [if_pos hid] at hgg
    rw [hgg]
    simp [List.filter_cons, hocc, hid', hcount]
  · have hid' : g.id ≠ id := by simpa using hid
    rw [if_neg hid] at hgg
    rw [hgg]
    have hb : (occ.error_id == g.id) = false := by
      simp only [beq_eq_false_iff_ne, hocc]
      exact fun h => hid' h.symm
    simp [List.filter_cons, hb, hcount]

theorem bumpGroup_ids (groups : List ErrorGroupRow) (id : Int) (ts : String) :
    (bumpGroup groups id ts).map (·.id) = groups.map (·.id) := by
  unfold bumpGroup
  rw [List.map_map]
  apply List.map_congr_left
  intro g _
  simp only [Function.comp_apply]
  split <;> rfl

/-- C6, amended: the occurrence-count invariant (every group's
`occurrence_count` equals the number of linked occurrence rows) is
preserved by `insert` on all three paths — exact-fingerprint update,
similarity merge, and new-group creation — but NOT by the retention
deletion: `delete_occurrences_before` removes occurrence rows while
leaving the `errors` table (and so every `occurrence_count`) untouched. -/
theorem c6_occurrence_count :
    (∀ (st : ErrorsState) (e : IncomingError) (pid : Option Int) (now : String),
      errorsWF st → occCountInv st = true →
      occCountInv (errorInsert st e pid now).1 = true ∧
        errorsWF (errorInsert st e pid now).1) ∧
    (∀ (st : ErrorsState) (before : String),
      (delete_occurrences_before st before).groups = st.groups) := by
  constructor
  · intro st e pid now hwf hinv
    obtain ⟨hnodup, hgbound, hobound⟩ := hwf
    unfold errorInsert
    cases hex : (st.groups.find? (fun g =>
        g.fingerprint == e.fingerprint && g.project_id == pid)).map (·.id) with
    | some id =>
      rcases Option.map_eq_some'.mp hex with ⟨g0, hg0, hgid⟩
      have hg0mem : g0 ∈ st.groups := List.mem_of_find?_eq_some hg0
      have hidlt : id < st.next_id := hgid ▸ hgbound g0 hg0mem
      simp only [hex]
      constructor
      · rw [occCountInv_iff]
        intro g' hg'
        exact bumped_inv rfl hinv g' hg'
      · refine ⟨?_, ?_, ?_⟩
        · simpa [bumpGroup_ids] using hnodup
        · intro g' hg'
          rcases bumpGroup_mem id _ hg' with ⟨g, hg, hgg⟩
          have := hgbound g hg
          subst hgg
          split <;> simpa using this
        · intro o ho
          rcases List.mem_append.mp ho with ho | ho
          · exact hobound o ho
          · simp only [List.mem_singleton] at ho
            subst ho; simpa using hidlt
    | none =>
      cases hsim : find_similar_error st.groups pid
          (generate_location_fingerprint e.exception_class e.backtrace)
          e.message with
      | some id =>
        have hidlt : id < st.next_id := by
          unfold find_similar_error at hsim
          rcases Option.map_eq_some'.mp hsim with ⟨g0, hg0, hgid⟩
          have hg0mem : g0 ∈ st.groups :=
            List.mem_of_mem_filter (List.mem_of_find?_eq_some hg0)
          exact hgid ▸ hgbound g0 hg0mem
        simp only [hex, hsim]
        constructor
        · rw [occCountInv_iff]
          intro g' hg'
          exact bumped_inv rfl hinv g' hg'
        · refine ⟨?_, ?_, ?_⟩
          · simpa [bumpGroup_ids] using hnodup
          · intro g' hg'
            rcases bumpGroup_mem id _ hg' with ⟨g, hg, hgg⟩
            have := hgbound g hg
            subst hgg
            split <;> simpa using this
          · intro o ho
            rcases List.mem_append.mp ho with ho | ho
            · exact hobound o ho
            · simp only [List.mem_singleton] at ho
              subst ho; simpa using hidlt
      | none =>
        simp only [hex, hsim]
        constructor
        · rw [occCountInv_iff]
          intro g' hg'
          simp only [List.mem_append, List.mem_singleton] at hg'
          rw [List.filter_append]
          rcases hg' with hg' | hg'
          · have hcount := (occCountInv_iff st).mp hinv g' hg'
            have hne : (st.next_id == g'.id) = false := by
              simp only [beq_eq_false_iff_ne]
              have := hgbound g' hg'
              omega
            simp [List.filter_cons, hne, hcount]
          · subst hg'
            have hempty : st.occs.filter
                (fun o => o.error_id == st.next_id) = [] := by
              rw [List.filter_eq_nil_iff]
              intro o ho
              have := hobound o ho
              simp only [beq_iff_eq]
              omega
            simp [List.filter_cons, hempty]
        · refine ⟨?_, ?_, ?_⟩
          · simp only [List.map_append, List.map_cons, List.map_nil]
            refine hnodup.append (List.nodup_singleton _) ?_
            intro a ha hb
            rw [List.mem_singleton] at hb
            subst hb
            rcases List.mem_map.mp ha with ⟨g, hg, hgid⟩
            have := hgbound g hg
            omega
          · intro g' hg'
            simp only [List.mem_append, List.mem_singleton] at hg'
            rcases hg' with hg' | hg'
            · have := hgbound g' hg'
              show g'.id < st.next_id + 1
              omega
            · subst hg'
              show st.next_id < st.next_id + 1
              omega
          · intro o ho
            rcases List.mem_append.mp ho with ho | ho
            · have := hobound o ho
              show o.error_id < st.next_id + 1
              omega
            · simp only [List.mem_singleton] at ho
              subst ho
              show st.next_id < st.next_id + 1
              omega
  · intro st before
    rfl

/-- C6, counterexample.  Insert one error (creating a group with
`occurrence_count` = 1 and one occurrence row), then run the retention
deletion with a cutoff after the occurrence's timestamp: the occurrence
row is deleted but the group still says `occurrence_count` = 1, so the
claimed invariant does not survive the retention deletion. -/
theorem c6_counterexample :
    occCountInv (delete_occurrences_before
      (errorInsert ⟨[], [], 1⟩ exIncomingError (some 1) "now").1
      "2025-01-01T00:00:00Z") = false := by decide

/-- C6, witness for the amended theorem: inserting into the empty store
preserves the invariant. -/
theorem c6_occurrence_witness :
    occCountInv (errorInsert ⟨[], [], 1⟩ exIncomingError (some 1) "now").1 =
      true :=
  (c6_occurrence_count.1 ⟨[], [], 1⟩ exIncomingError (some 1) "now"
    ⟨by simp, by simp, by simp⟩ (by decide)).1

-- ===========================================================================
-- C1: depth computation of get_trace
-- ===========================================================================

theorem computeDepth_mono :
    ∀ (f : Nat) (pm : List (String × Option String)) (s : String) (d : Nat)
      (f' : Nat), computeDepth f pm s = some d → f ≤ f' →
      computeDepth f' pm s = some d := by
  intro f
  induction f with
  | zero => intro pm s d f' h; simp [computeDepth] at h
  | succ k ih =>
    intro pm s d f' h hle
    rcases Nat.exists_eq_add_of_le hle with ⟨m, hm⟩
    subst hm
    have heq : k + 1 + m = (k + m) + 1 := by omega
    rw [heq]
    simp only [computeDepth] at h ⊢
    cases hl : pmLookup pm s with
    | none => rw [hl] at h; exact h
    | some po =>
      cases po with
      | none => rw [hl] at h; exact h
      | some p =>
        rw [hl] at h
        have h' : (computeDepth k pm p).map (fun x => x + 1) = some d := h
        rcases Option.map_eq_some'.mp h' with ⟨d0, hd0, hdd⟩
        show (computeDepth (k + m) pm p).map (fun x => x + 1) = some d
        rw [ih pm p d0 (k + m) hd0 (by omega)]
        simpa using hdd

theorem groundedH_computeDepth {pm : List (String × Option String)}
    {s : String} {h : Nat} (hg : GroundedH pm s h) :
    computeDepth (h + 1) pm s = some h := by
  induction hg with
  | @root s' hroot =>
    simp only [computeDepth]
    cases hl : pmLookup pm s' with
    | none => rfl
    | some po =>
      cases po with
      | none => rfl
      | some p => unfold parentOf at hroot; rw [hl] at hroot; simp at hroot
  | @step s' p k hpar hgp ih =>
    have hl : pmLookup pm s' = some (some p) := by
      unfold parentOf at hpar
      cases hl' : pmLookup pm s' with
      | none => rw [hl'] at hpar; simp at hpar
      | some po =>
        cases po with
        | none => rw [hl'] at hpar; simp at hpar
        | some q =>
          rw [hl'] at hpar
          simp only [Option.some.injEq] at hpar
          rw [hpar]
    have hstep : computeDepth (k + 1 + 1) pm s' =
        (computeDepth (k + 1) pm p).map (fun x => x + 1) := by
      rw [computeDepth, hl]
    simp only [hstep, ih, Option.map_some']

theorem gh_iter {pm : List (String × Option String)} {s : String} {h : Nat}
    (hg : GroundedH pm s h) :
    ∀ i ≤ h, ∃ t, iterParent pm i s = some t ∧ GroundedH pm t (h - i) := by
  induction hg with
  | root hroot =>
    intro i hi
    rename_i s'
    have : i = 0 := Nat.le_zero.mp hi
    subst this
    exact ⟨s', rfl, GroundedH.root hroot⟩
  | step hpar hgp ih =>
    intro i hi
    rename_i s' p k
    cases i with
    | zero => exact ⟨s', rfl, GroundedH.step hpar hgp⟩
    | succ j =>
      rcases ih j (by omega) with ⟨t, ht, hgt⟩
      refine ⟨t, ?_, ?_⟩
      · simp [iterParent, hpar, ht]
      · have : k + 1 - (j + 1) = k - j := by omega
        rw [this]
        exact hgt

theorem gh_unique {pm : List (String × Option String)} {s : String}
    {h₁ h₂ : Nat} (hg₁ : GroundedH pm s h₁) (hg₂ : GroundedH pm s h₂) :
    h₁ = h₂ := by
  induction hg₁ generalizing h₂ with
  | root hroot =>
    cases hg₂ with
    | root _ => rfl
    | step hpar _ => rw [hroot] at hpar; exact absurd hpar (by simp)
  | step hpar hgp ih =>
    cases hg₂ with
    | root hroot => rw [hroot] at hpar; exact absurd hpar (by simp)
    | step hpar' hgp' =>
      have : _ = _ := hpar.symm.trans hpar'
      simp only [Option.some.injEq] at this
      subst this
      rw [ih hgp']

theorem gh_key {pm : List (String × Option String)} {t : String} {k : Nat}
    (hg : GroundedH pm t (k + 1)) : t ∈ pm.map (·.1) := by
  cases hg with
  | step hpar _ =>
    rename_i p
    unfold parentOf at hpar
    cases hl : pmLookup pm t with
    | none => rw [hl] at hpar; simp at hpar
    | some po =>
      unfold pmLookup at hl
      rcases Option.map_eq_some'.mp hl with ⟨pair, hpair, _⟩
      have hpred := List.find?_some hpair
      have hmem := List.mem_of_find?_eq_some hpair
      have : pair.1 = t := beq_iff_eq.mp hpred
      exact this ▸ List.mem_map.mpr ⟨pair, hmem, rfl⟩

theorem gh_le {pm : List (String × Option String)} {s : String} {h : Nat}
    (hg : GroundedH pm s h) : h ≤ pm.length := by
  by_cases h0 : h = 0
  · omega
  · have hchain : ∀ i : Fin h, ∃ t, iterParent pm (i : Nat) s = some t ∧
        GroundedH pm t (h - (i : Nat)) := fun i =>
      gh_iter hg (i : Nat) (le_of_lt i.2)
    set f : Fin h → String := fun i => (iterParent pm (i : Nat) s).getD ""
      with hf
    have hfmem : ∀ i : Fin h, f i ∈ pm.map (·.1) := by
      intro i
      rcases hchain i with ⟨t, ht, hgt⟩
      have hpos : 0 < h - (i : Nat) := by
        have := i.2
        omega
      rcases Nat.exists_eq_add_of_lt hpos with ⟨k, hk⟩
      have hgt' : GroundedH pm t (k + 1) := by
        have : h - (i : Nat) = k + 1 := by omega
        rw [← this]
        exact hgt
      have : f i = t := by rw [hf]; simp [ht]
      rw [this]
      exact gh_key hgt'
    have hinj : Function.Injective f := by
      intro i j hij
      rcases hchain i with ⟨ti, hti, hgi⟩
      rcases hchain j with ⟨tj, htj, hgj⟩
      have hfi : f i = ti := by rw [hf]; simp [hti]
      have hfj : f j = tj := by rw [hf]; simp [htj]
      have htij : ti = tj := by rw [← hfi, ← hfj, hij]
      subst htij
      have := gh_unique hgi hgj
      have hii := i.2
      have hjj := j.2
      ext
      omega
    have hcard : h ≤ ((pm.map (·.1)).toFinset).card := by
      have := Finset.card_le_card_of_injOn (s := (Finset.univ : Finset (Fin h)))
        (t := (pm.map (·.1)).toFinset) f
        (fun i _ => List.mem_toFinset.mpr (hfmem i))
        (Function.Injective.injOn hinj)
      simpa using this
    calc h ≤ ((pm.map (·.1)).toFinset).card := hcard
      _ ≤ (pm.map (·.1)).length := List.toFinset_card_le _
      _ = pm.length := List.length_map _ _

theorem mapM_isSome {α β : Type} (f : α → Option β) (l : List α)
    (h : ∀ a ∈ l, (f a).isSome) : (l.mapM f).isSome := by
  induction l with
  | nil => rfl
  | cons a rest ih =>
    rw [List.mapM_cons]
    rcases Option.isSome_iff_exists.mp (h a (by simp)) with ⟨b, hb⟩
    have hrest := ih (fun x hx => h x (by simp [hx]))
    rcases Option.isSome_iff_exists.mp hrest with ⟨bs, hbs⟩
    rw [hb, hbs]
    rfl

theorem mapM_forall₂ {α β : Type} (f : α → Option β) :
    ∀ (l : List α) (l' : List β), l.mapM f = some l' →
      List.Forall₂ (fun a b => f a = some b) l l' := by
  intro l
  induction l with
  | nil =>
    intro l' h
    simp only [List.mapM_nil, pure, Option.pure_def, Option.some.injEq] at h
    subst h
    exact List.Forall₂.nil
  | cons a rest ih =>
    intro l' h
    rw [List.mapM_cons] at h
    cases hfa : f a with
    | none => rw [hfa] at h; simp at h
    | some b =>
      rw [hfa] at h
      cases hrest : rest.mapM f with
      | none => rw [hrest] at h; simp at h
      | some bs =>
        rw [hrest] at h
        simp only [Option.bind_some, Option.pure_def, Option.bind_eq_bind,
          Option.some_bind, Option.some.injEq] at h
        subst h
        exact List.Forall₂.cons hfa (ih bs hrest)

theorem pm_lookup_of_mem {rows : List TraceRow} {r : TraceRow}
    (hnd : (spanIds rows).Nodup) (hr : r ∈ rows) :
    pmLookup (parentMapOf rows) r.span_id = some r.parent_span_id := by
  induction rows with
  | nil => simp at hr
  | cons x rest ih =>
    rcases List.mem_cons.mp hr with hr | hr
    · subst hr
      simp [pmLookup, parentMapOf, List.find?_cons]
    · have hnd' : (spanIds rest).Nodup := by
        simpa [spanIds] using (List.nodup_cons.mp (by simpa [spanIds] using hnd)).2
      have hxr : x.span_id ≠ r.span_id := by
        have hx : x.span_id ∉ spanIds rest :=
          (List.nodup_cons.mp (by simpa [spanIds] using hnd)).1
        intro hcontra
        exact hx (hcontra ▸ List.mem_map.mpr ⟨r, hr, rfl⟩)
      have hb : (x.span_id == r.span_id) = false := by
        simpa using hxr
      simp only [pmLookup, parentMapOf, List.map_cons, List.find?_cons, hb]
      exact ih hnd' hr

theorem pm_lookup_of_not_mem {rows : List TraceRow} {p : String}
    (hp : p ∉ spanIds rows) : pmLookup (parentMapOf rows) p = none := by
  unfold pmLookup
  rw [Option.map_eq_none', List.find?_eq_none]
  intro pair hpair hcontra
  rcases List.mem_map.mp hpair with ⟨r, hr, hrp⟩
  have h1 : pair.1 = r.span_id := by rw [← hrp]
  rw [h1] at hcontra
  have hsp : r.span_id = p := beq_iff_eq.mp hcontra
  exact hp (List.mem_map.mpr ⟨r, hr, hsp⟩)

/-- The per-row shape of a successful `get_trace`: each display record
carries its row's span id and parent id, and its depth is the value of the
depth recursion at fuel `rows.length + 1`. -/
theorem get_trace_forall₂ {tid : String} {rows : List TraceRow}
    {detail : TraceDetail} (h : get_trace tid rows = some detail) :
    List.Forall₂ (fun r (s : SpanDisplay) => s.span_id = r.span_id ∧
      s.parent_span_id = r.parent_span_id ∧
      computeDepth (rows.length + 1) (parentMapOf rows) r.span_id =
        some s.depth) rows detail.spans := by
  unfold get_trace at h
  by_cases hrows : rows.isEmpty
  · rw [if_pos hrows] at h; simp at h
  · rw [if_neg hrows] at h
    rcases Option.map_eq_some'.mp h with ⟨displays, hdisp, hdet⟩
    have hforall := mapM_forall₂ _ rows displays hdisp
    have hspans : detail.spans = displays := by rw [← hdet]
    rw [hspans]
    refine List.Forall₂.imp ?_ hforall
    intro r s hrs
    rcases Option.map_eq_some'.mp hrs with ⟨d, hd, hs⟩
    subst hs
    exact ⟨rfl, rfl, hd⟩

theorem forall₂_mem_right {α β : Type} {R : α → β → Prop} :
    ∀ {l : List α} {l' : List β}, List.Forall₂ R l l' →
      ∀ b ∈ l', ∃ a ∈ l, R a b := by
  intro l l' h
  induction h with
  | nil => intro b hb; simp at hb
  | cons hab _ ih =>
    intro b hb
    rcases List.mem_cons.mp hb with hb | hb
    · subst hb
      exact ⟨_, by simp, hab⟩
    · rcases ih b hb with ⟨a, ha, hr⟩
      exact ⟨a, by simp [ha], hr⟩

theorem forall₂_length_filter {α β : Type} {R : α → β → Prop}
    {p : α → Bool} {q : β → Bool} :
    ∀ {l : List α} {l' : List β}, List.Forall₂ R l l' →
      (∀ a b, R a b → (p a = true ↔ q b = true)) →
      (l.filter p).length = (l'.filter q).length := by
  intro l l' h
  induction h with
  | nil => intro _; rfl
  | cons hab htail ih =>
    intro hcong
    rename_i a b l₁ l₂
    rw [List.filter_cons, List.filter_cons]
    by_cases hp : p a = true
    · rw [if_pos hp, if_pos ((hcong a b hab).mp hp)]
      simp [ih hcong]
    · have hq : ¬(q b = true) := fun hq => hp ((hcong a b hab).mpr hq)
      rw [if_neg hp, if_neg hq]
      exact ih hcong

theorem forall₂_mem_left {α β : Type} {R : α → β → Prop} :
    ∀ {l : List α} {l' : List β}, List.Forall₂ R l l' →
      List.Forall₂ (fun a b => a ∈ l ∧ R a b) l l' := by
  intro l l' h
  induction h with
  | nil => exact List.Forall₂.nil
  | cons hab htail ih =>
    refine List.Forall₂.cons ⟨by simp, hab⟩ ?_
    exact List.Forall₂.imp
      (fun a b h2 => ⟨List.mem_cons_of_mem _ h2.1, h2.2⟩) ih

theorem optIsSomeMap {α β : Type} (f : α → β) (o : Option α) :
    (o.map f).isSome = o.isSome := by
  cases o with
  | none => rfl
  | some a => rfl

/-- Each record of a successful `get_trace` comes from a row whose id and
parent it copies, with the recursion's depth value. -/
theorem get_trace_mem_spec {tid : String} {rows : List TraceRow}
    {detail : TraceDetail} (h : get_trace tid rows = some detail) :
    ∀ s ∈ detail.spans, ∃ r ∈ rows, s.span_id = r.span_id ∧
      s.parent_span_id = r.parent_span_id ∧
      computeDepth (rows.length + 1) (parentMapOf rows) r.span_id =
        some s.depth :=
  forall₂_mem_right (get_trace_forall₂ h)

theorem rows_nonempty_of_get_trace {tid : String} {rows : List TraceRow}
    {detail : TraceDetail} (h : get_trace tid rows = some detail) :
    rows ≠ [] := by
  intro hcontra
  subst hcontra
  unfold get_trace at h
  simp at h

/-- C1, amended.  For every span record returned by `get_trace` (span ids
unique, as the table key guarantees): depth is 0 when `parent_span_id` is
null; depth is depth(parent) + 1 when the parent id resolves to a span of
the trace; and depth is 1 — not 0 — when `parent_span_id` is set but does
not occur in the trace (the missing parent is treated as a root of depth
0).  Moreover every well-formed trace (non-empty, unique ids, unique root,
parent links resolving, grounded parent chains) yields a result in which
exactly one record has depth 0. -/
theorem c1_depth_amended :
    (∀ (tid : String) (rows : List TraceRow) (detail : TraceDetail),
      (spanIds rows).Nodup → get_trace tid rows = some detail →
      ∀ s ∈ detail.spans,
        (s.parent_span_id = none → s.depth = 0) ∧
        (∀ p, s.parent_span_id = some p →
          (∀ t ∈ detail.spans, t.span_id = p → s.depth = t.depth + 1) ∧
          (p ∉ spanIds rows → s.depth = 1))) ∧
    (∀ (tid : String) (rows : List TraceRow), WellFormedTrace rows →
      ∃ detail, get_trace tid rows = some detail ∧
        (detail.spans.filter (fun s => s.depth == 0)).length = 1) := by
  have key : ∀ (tid : String) (rows : List TraceRow) (detail : TraceDetail),
      (spanIds rows).Nodup → get_trace tid rows = some detail →
      ∀ s ∈ detail.spans,
        (s.parent_span_id = none → s.depth = 0) ∧
        (∀ p, s.parent_span_id = some p →
          (∀ t ∈ detail.spans, t.span_id = p → s.depth = t.depth + 1) ∧
          (p ∉ spanIds rows → s.depth = 1)) := by
    intro tid rows detail hnd h s hs
    rcases get_trace_mem_spec h s hs with ⟨r, hr, hsid, hpid, hdepth⟩
    have hl : pmLookup (parentMapOf rows) r.span_id =
        some r.parent_span_id := pm_lookup_of_mem hnd hr
    constructor
    · intro hpnone
      rw [hpid] at hpnone
      rw [hpnone] at hl
      simp only [computeDepth, hl] at hdepth
      exact (Option.some.inj hdepth).symm
    · intro p hp
      rw [hpid] at hp
      rw [hp] at hl
      simp only [computeDepth, hl] at hdepth
      rcases Option.map_eq_some'.mp hdepth with ⟨dp, hdp, hsd⟩
      constructor
      · intro t ht htp
        rcases get_trace_mem_spec h t ht with ⟨rt, hrt, htsid, _, htdepth⟩
        have hrtp : rt.span_id = p := by rw [← htsid, htp]
        rw [hrtp] at htdepth
        have hdp' : computeDepth (rows.length + 1) (parentMapOf rows) p =
            some dp := computeDepth_mono _ _ _ _ _ hdp (by omega)
        have : t.depth = dp := by
          have := hdp'.symm.trans htdepth
          exact (Option.some.inj this).symm
        omega
      · intro hpnotin
        have hlp : pmLookup (parentMapOf rows) p = none :=
          pm_lookup_of_not_mem hpnotin
        have hne : rows ≠ [] := rows_nonempty_of_get_trace h
        rcases List.exists_cons_of_ne_nil hne with ⟨x, xs, hxe⟩
        have hlen : rows.length = xs.length + 1 := by rw [hxe]; simp
        rw [hlen] at hdp
        simp only [computeDepth, hlp] at hdp
        have : dp = 0 := (Option.some.inj hdp).symm
        omega
  refine ⟨key, ?_⟩
  intro tid rows hwf
  obtain ⟨hne, hnd, hroot, _hres, hground⟩ := hwf
  have hsome : ∀ r ∈ rows,
      (computeDepth (rows.length + 1) (parentMapOf rows) r.span_id).isSome := by
    intro r hr
    rcases hground r hr with ⟨hgt, hg⟩
    have hle : hgt ≤ rows.length := by
      have := gh_le hg
      have hpm : (parentMapOf rows).length = rows.length := by
        simp [parentMapOf]
      omega
    have := groundedH_computeDepth hg
    have := computeDepth_mono _ _ _ _ (rows.length + 1) this (by omega)
    simp [this]
  have hisSome : (get_trace tid rows).isSome := by
    unfold get_trace
    rw [if_neg (by simpa using hne)]
    simp only [optIsSomeMap]
    refine mapM_isSome _ _ ?_
    intro a ha
    simp only [optIsSomeMap]
    exact hsome a ha
  rcases Option.isSome_iff_exists.mp hisSome with ⟨detail, hdet⟩
  refine ⟨detail, hdet, ?_⟩
  have hall := forall₂_mem_left (get_trace_forall₂ hdet)
  have hcount : (rows.filter (fun r => r.parent_span_id == none)).length =
      (detail.spans.filter (fun s => s.depth == 0)).length := by
    refine forall₂_length_filter hall ?_
    intro r s hrs
    rcases hrs with ⟨hmem, hsid, hpid, hdepth⟩
    have hl : pmLookup (parentMapOf rows) r.span_id = some r.parent_span_id :=
      pm_lookup_of_mem hnd hmem
    constructor
    · intro hpd
      have hpn : r.parent_span_id = none := by simpa using hpd
      rw [hpn] at hl
      simp only [computeDepth, hl] at hdepth
      have : s.depth = 0 := (Option.some.inj hdepth).symm
      simpa using this
    · intro hd0
      have hd : s.depth = 0 := by simpa using hd0
      cases hpar : r.parent_span_id with
      | none => simp
      | some p =>
        rw [hpar] at hl
        simp only [computeDepth, hl] at hdepth
        rcases Option.map_eq_some'.mp hdepth with ⟨dp, _, hsd⟩
        exfalso
        omega
  rw [← hcount]
  exact hroot

/-- C1, counterexample to the claim as written: a single-span trace whose
span has a dangling `parent_span_id` (set, but matching no span of the
trace) is displayed with depth 1, not depth 0. -/
theorem c1_counterexample :
    (get_trace "t" [danglingRow]).map
        (fun d => d.spans.map (fun s => (s.parent_span_id, s.depth))) =
      some [(some "zzz", 1)] ∧
    "zzz" ∉ spanIds [danglingRow] := by
  constructor
  · decide
  · decide

/-- C1, witness: the claim theorem applied to the concrete dangling-parent
trace: the record's depth is forced to 1 by the missing-parent clause. -/
theorem c1_depth_amended_witness :
    ∃ detail, get_trace "t" [danglingRow] = some detail ∧
      ∀ s ∈ detail.spans, s.depth = 1 := by
  cases hdet : get_trace "t" [danglingRow] with
  | none => exact absurd hdet (by decide)
  | some detail =>
    refine ⟨detail, rfl, ?_⟩
    intro s hs
    have h := (c1_depth_amended.1 "t" [danglingRow] detail (by decide) hdet s hs).2
    have hp : s.parent_span_id = some "zzz" := by
      rcases get_trace_mem_spec hdet s hs with ⟨r, hr, _, hpid, _⟩
      have hrd : r = danglingRow := by simpa using hr
      rw [hpid, hrd]
      rfl
    exact (h "zzz" hp).2 (by decide)


/-- C10, witness: the six-identical-pattern trace of spec §8 S5 yields an
issue for the normalized pattern. -/
theorem c10_n_plus_1_witness :
    ∃ i ∈ detect_n_plus_1 exNPlus1Spans,
      i.pattern = "SELECT * FROM users WHERE id = ?" :=
  ((c10_n_plus_1_threshold exNPlus1Spans).1 "SELECT * FROM users WHERE id = ?").mpr
    (by
      have h : ∀ s : String,
          normalize_sql s =
            ⟨joinWords (wordsAux
              (scanSqlFuel s.toList.length s.toList false ' ' []).reverse [])⟩ :=
        normalize_sql_exec
      simp only [patternCount, patternSpans, exNPlus1Spans, exDbSpan,
        List.filter_cons, List.filter_nil, Option.map_some', h]
      decide)

end

end MiniApm
